import Mathlib

/-!
# fsnotify: operation masks, the recursive-path convention and directory expansion

A shallow embedding of `fsnotify.go` (package `fsnotify`, Unix build) together with the
parts of the Go standard library it calls (`path/filepath`: `Clean`, `Base`, `Dir`, `Join`,
`WalkDir`; `strconv.Quote` with `unicode/utf8` for the verb `%q`), followed by theorems about
the embedded functions.

Conventions.
* `Op` is Go's `uint32`; a value is a natural number below `2 ^ 32`.  The only arithmetic the
  source performs on an `Op` is `&`, which never leaves that range.
* A Go path string is modelled by the list of its characters (`List Char`).  The only bytes the
  path functions inspect are `'/'` and `'.'`, which are single-byte in UTF-8 and never occur
  inside a multi-byte sequence.
* The name of an event is modelled by the list of its bytes (`List Nat`): `%q` decodes the
  bytes as UTF-8 and escapes those that are not part of a well-formed sequence.
* On Unix `filepath.Separator` is `'/'`, `filepath.VolumeName` is always empty and
  `filepath.FromSlash` is the identity.
-/

namespace Fsnotify

/-! ## Operation model (`fsnotify.go`, lines 20-83) -/

/-- Go's `type Op uint32`. -/
abbrev Op := Nat

/-- The flag `Create Op = 1 << iota` with `iota = 0`. -/
def Create : Op := 1 <<< 0
/-- The flag `Write` (`iota = 1`). -/
def Write : Op := 1 <<< 1
/-- The flag `Remove` (`iota = 2`). -/
def Remove : Op := 1 <<< 2
/-- The flag `Rename` (`iota = 3`). -/
def Rename : Op := 1 <<< 3
/-- The flag `Chmod` (`iota = 4`). -/
def Chmod : Op := 1 <<< 4

/-- Go: `func (o Op) Has(h Op) bool { return o&h == h }`. -/
def Op.Has (o h : Op) : Bool := o &&& h == h

/-- Go: `func (op Op) String() string`.  The `strings.Builder` is the accumulated string `b`;
`b.Len() == 0` is emptiness and `b.String()[1:]` drops the leading `'|'`. -/
def Op.String (op : Op) : String :=
  let b := ""
  let b := if op.Has Create then b ++ "|CREATE" else b
  let b := if op.Has Remove then b ++ "|REMOVE" else b
  let b := if op.Has Write then b ++ "|WRITE" else b
  let b := if op.Has Rename then b ++ "|RENAME" else b
  let b := if op.Has Chmod then b ++ "|CHMOD" else b
  if b.length == 0 then "" else b.drop 1

/-- The five flags with their names, in the canonical order of the specification
(Create, Remove, Write, Rename, Chmod). -/
def canonicalOrder : List (Op × String) :=
  [(Create, "CREATE"), (Remove, "REMOVE"), (Write, "WRITE"), (Rename, "RENAME"),
    (Chmod, "CHMOD")]

/-- The rendering the specification describes: the names of the flags whose bit is set in `m`,
in canonical order, joined by a single `"|"`. -/
def renderSpec (m : Op) : String :=
  "|".intercalate ((canonicalOrder.filter (fun p => m &&& p.1 != 0)).map Prod.snd)

/-! ## `path/filepath` on Unix: `Clean`, `Base`, `Dir`, `Join` -/

/-- Go: `os.IsPathSeparator(c)` on Unix, `c == '/'`. -/
def IsPathSeparator (c : Char) : Bool := c == '/'

/-- The loop condition `!os.IsPathSeparator(path[i])` used by `Clean`, `Base` and `Dir`. -/
def notSep (c : Char) : Bool := !IsPathSeparator c

/-- The backtracking loop of `Clean`'s `..` case, run after the first `out.w--`:
`for out.w > dotdot && !os.IsPathSeparator(out.index(out.w)) { out.w-- }`.
The argument is the current `out.w`; the result is the final `out.w`. -/
def backtrack (out : List Char) (dotdot : Nat) : Nat → Nat
  | 0 => 0
  | w + 1 =>
    if w + 1 > dotdot && !IsPathSeparator (out.getD (w + 1) '/') then backtrack out dotdot w
    else w + 1

/-- The main loop `for r < n { switch { ... } }` of `filepath.Clean`.

* `rest` is the unread input `path[r:]` (so `r == n` is `rest = []`, `path[r]` is its head,
  `r+1 == n` says that its tail is empty, and so on);
* `out` is the live content `buf[0:out.w]` of the `lazybuf` (`out.w` is `out.length`,
  `out.append c` is `out ++ [c]`, lowering `out.w` to `w` is `out.take w`; bytes above `out.w`
  are never read before being overwritten);
* `dotdot` is the source's `dotdot`.

The result is the final `(out, dotdot)`. -/
def cleanLoop (rooted : Bool) (rest : List Char) (out : List Char) (dotdot : Nat) :
    List Char × Nat :=
  match rest with
  | [] => (out, dotdot)
  | c :: rest1 =>
    if IsPathSeparator c then
      -- empty path element
      cleanLoop rooted rest1 out dotdot
    else if c == '.' && (rest1.length == 0 || IsPathSeparator (rest1.getD 0 '/')) then
      -- . element
      cleanLoop rooted rest1 out dotdot
    else if c == '.' && rest1.getD 0 '/' == '.' &&
        (rest1.length == 1 || IsPathSeparator (rest1.getD 1 '/')) then
      -- .. element: remove to last separator
      if out.length > dotdot then
        cleanLoop rooted (rest1.drop 1) (out.take (backtrack out dotdot (out.length - 1))) dotdot
      else if !rooted then
        let out1 := if out.length > 0 then out ++ ['/'] else out
        let out2 := out1 ++ ['.', '.']
        cleanLoop rooted (rest1.drop 1) out2 out2.length
      else cleanLoop rooted (rest1.drop 1) out dotdot
    else
      -- real path element: add slash if needed, then copy the element
      let out1 := if (rooted && out.length != 1) || (!rooted && out.length != 0)
        then out ++ ['/'] else out
      cleanLoop rooted (rest1.dropWhile notSep) (out1 ++ c :: rest1.takeWhile notSep) dotdot
termination_by rest.length
decreasing_by
  all_goals simp_wf
  all_goals first
    | omega
    | (have h : (rest1.dropWhile notSep).length ≤ rest1.length :=
        (List.dropWhile_sublist notSep).length_le
       omega)

/-- Go: `filepath.Clean(path)` (Unix: no volume name, `FromSlash` is the identity). -/
def Clean (path : List Char) : List Char :=
  if path = [] then ['.']
  else
    let rooted := IsPathSeparator (path.getD 0 '.')
    let st := if rooted then cleanLoop rooted (path.drop 1) ['/'] 1 else cleanLoop rooted path [] 0
    -- Turn empty string into "."
    if st.1.length == 0 then ['.'] else st.1

/-- Go: `filepath.Base(path)`.  Trailing separators are stripped (`List.rdropWhile`), then the
part after the last separator is kept (`List.rtakeWhile`: the index `i` runs down from the end
while `path[i]` is not a separator and the result is `path[i+1:]`). -/
def Base (path : List Char) : List Char :=
  if path = [] then ['.']
  else
    let path := path.rdropWhile IsPathSeparator
    let path := path.rtakeWhile notSep
    if path = [] then ['/'] else path

/-- Go: `filepath.Dir(path)`: `i` runs down from the end while `path[i]` is not a separator and
the result is `Clean(path[0:i+1])`. -/
def Dir (path : List Char) : List Char := Clean (path.rdropWhile notSep)

/-- Go: `filepath.Join(a, b)` for two elements: the first non-empty element onwards is joined
with the separator and cleaned; if both are empty the result is empty. -/
def Join (a b : List Char) : List Char :=
  if a ≠ [] then Clean (a ++ '/' :: b) else if b ≠ [] then Clean b else []

/-- Go: `filepath.IsAbs(path)` on Unix, `strings.HasPrefix(path, "/")`. -/
def IsAbs (path : List Char) : Bool := path.head? == some '/'

/-! ## The recursive-path convention (`fsnotify.go`, lines 113-120) -/

/-- Go: `func recursivePath(path string) (string, bool)`. -/
def recursivePath (path : List Char) : List Char × Bool :=
  if Base path = "...".toList then (Dir path, true) else (path, false)

/-! ## Errors (`fsnotify.go`, lines 29-35, and `io/fs`) -/

/-- Go `error` values that occur in `findDirs`: the four sentinel errors of the package, the
sentinels `fs.SkipDir` and `fs.SkipAll`, an operating-system error reported by `os.Lstat` or
`os.ReadDir` (identified by a number), an error built by `fmt.Errorf("%q: %w", path, inner)`
(recorded with its operand `path` and the wrapped error), and the run-time failure of calling a
method on a nil `fs.DirEntry`. -/
inductive GoError where
  | ErrNonExistentWatch
  | ErrEventOverflow
  | ErrNotDirectory
  | ErrRecursionUnsupported
  | SkipDir
  | SkipAll
  | errno (code : Nat)
  | wrap (path : List Char) (inner : GoError)
  | nilDereference
deriving DecidableEq

/-- Go: `errors.Is(err, target)`: `err` or an error in its `%w` chain equals `target`. -/
def GoError.Is : GoError → GoError → Bool
  | .wrap path inner, target => (GoError.wrap path inner == target) || GoError.Is inner target
  | e, target => e == target

/-! ## The file tree seen by `filepath.WalkDir` -/

mutual
/-- A file-system object as the walk sees it: a non-directory (regular file, symbolic link,
device, ...) or a directory.  For a directory, `entries` is the listing `os.ReadDir` returns for
it and `readErr` is the error `os.ReadDir` returns with it, if any (the listing is then the part
read before the error). -/
inductive Node where
  | file : Node
  | dir (entries : Entries) (readErr : Option Nat) : Node
/-- A directory listing: entry names with the objects they name, in the order of `os.ReadDir`. -/
inductive Entries where
  | nil : Entries
  | cons (name : List Char) (node : Node) (rest : Entries) : Entries
end

/-- Go: `fs.DirEntry`, reduced to the two methods that are called on it. -/
structure DirEntry where
  Name : List Char
  IsDir : Bool
deriving DecidableEq

/-- Go: `fs.WalkDirFunc`, `func(path string, d DirEntry, err error) error`, with the variables
the closure captures passed explicitly as a state of type `σ`.  A nil `d` or `err` is `none`. -/
abbrev WalkDirFunc (σ : Type) :=
  σ → List Char → Option DirEntry → Option GoError → σ × Option GoError

mutual
/-- Go: `filepath.walkDir(path, d, walkDirFn)`; `name` is `d.Name()` and the node is what `d`
names, so `os.ReadDir(path)` is the node's listing. -/
def walkDir {σ : Type} (walkDirFn : WalkDirFunc σ) (path : List Char) (name : List Char)
    (d : Node) (s : σ) : σ × Option GoError :=
  match d with
  | .file =>
    -- `!d.IsDir()`: the callback's result is returned as it is
    walkDirFn s path (some ⟨name, false⟩) none
  | .dir entries readErr =>
    match walkDirFn s path (some ⟨name, true⟩) none with
    | (s1, some err) => if err = GoError.SkipDir then (s1, none) else (s1, some err)
    | (s1, none) =>
      match readErr with
      | some e =>
        -- second call, to report the ReadDir error
        match walkDirFn s1 path (some ⟨name, true⟩) (some (GoError.errno e)) with
        | (s2, some err) => if err = GoError.SkipDir then (s2, none) else (s2, some err)
        | (s2, none) => walkEntries walkDirFn path entries s2
      | none => walkEntries walkDirFn path entries s1
/-- The loop `for _, d1 := range dirs` of `filepath.walkDir`. -/
def walkEntries {σ : Type} (walkDirFn : WalkDirFunc σ) (path : List Char) (dirs : Entries)
    (s : σ) : σ × Option GoError :=
  match dirs with
  | .nil => (s, none)
  | .cons name d1 rest =>
    match walkDir walkDirFn (Join path name) name d1 s with
    | (s1, some err) => if err = GoError.SkipDir then (s1, none) else (s1, some err)
    | (s1, none) => walkEntries walkDirFn path rest s1
end

/-- Go: `filepath.WalkDir(root, fn)`.  `lstat` is the result of `os.Lstat(root)`: an
operating-system error, or the object found at `root`. -/
def WalkDir {σ : Type} (lstat : Except Nat Node) (root : List Char) (fn : WalkDirFunc σ)
    (s : σ) : σ × Option GoError :=
  let r := match lstat with
    | .error e => fn s root none (some (GoError.errno e))
    | .ok info => walkDir fn root (Base root) info s
  if r.2 = some GoError.SkipDir ∨ r.2 = some GoError.SkipAll then (r.1, none) else r

/-! ## Directory expansion (`fsnotify.go`, lines 91-111) -/

/-- The closure passed to `filepath.WalkDir` by `findDirs`; its state is the captured slice
`dirs`. -/
def findDirsFn (path : List Char) : WalkDirFunc (List (List Char)) :=
  fun dirs root d err =>
    match err with
    | some e => (dirs, some e)
    | none =>
      match d with
      | none => (dirs, some GoError.nilDereference)
      | some d =>
        if root = path && !d.IsDir then
          (dirs, some (GoError.wrap path GoError.ErrNotDirectory))
        else if d.IsDir then (dirs ++ [root], none)
        else (dirs, none)

/-- Go: `func findDirs(path string) ([]string, error)`, run on the file tree described by
`lstat`.  A nil slice is `[]` and a nil error is `none`. -/
def findDirs (lstat : Except Nat Node) (path : List Char) :
    List (List Char) × Option GoError :=
  let r := WalkDir lstat path (findDirsFn path) []
  match r.2 with
  | some err => ([], some err)
  | none => (r.1, none)

/-! ## Event model (`fsnotify.go`, lines 37-51 and 82-89) -/

/-- Go: `type Event struct { Name string; Op Op }`.  The name is the sequence of the bytes of
the Go string, which need not be well-formed UTF-8. -/
structure Event where
  Name : List Nat
  Op : Op

/-- Go: `func (e Event) Has(op Op) bool { return e.Op.Has(op) }`. -/
def Event.Has (e : Event) (op : Fsnotify.Op) : Bool := Fsnotify.Op.Has e.Op op

/-! ### `unicode/utf8` and `strconv.Quote`, which the verb `%q` of `fmt` calls -/

/-- Go: `utf8.RuneError`. -/
def RuneError : Nat := 0xFFFD

/-- Go: `utf8.RuneSelf`. -/
def RuneSelf : Nat := 0x80

/-- Go: the table `first` of `unicode/utf8`. -/
def first (b : Nat) : Nat :=
  if b < 0x80 then 0xF0
  else if b < 0xC2 then 0xF1
  else if b < 0xE0 then 0x02
  else if b == 0xE0 then 0x13
  else if b < 0xED then 0x03
  else if b == 0xED then 0x23
  else if b < 0xF0 then 0x03
  else if b == 0xF0 then 0x34
  else if b < 0xF4 then 0x04
  else if b == 0xF4 then 0x44
  else 0xF1

/-- Go: `acceptRanges[i].lo`. -/
def acceptLo (i : Nat) : Nat :=
  if i == 0 then 0x80 else if i == 1 then 0xA0 else if i == 2 then 0x80
  else if i == 3 then 0x90 else if i == 4 then 0x80 else 0

/-- Go: `acceptRanges[i].hi`. -/
def acceptHi (i : Nat) : Nat :=
  if i == 0 then 0xBF else if i == 1 then 0xBF else if i == 2 then 0x9F
  else if i == 3 then 0xBF else if i == 4 then 0x8F else 0

/-- Go: `utf8.DecodeRuneInString(s)`, returning the rune and its width in bytes. -/
def DecodeRuneInString (s : List Nat) : Nat × Nat :=
  let n := s.length
  if n < 1 then (RuneError, 0)
  else
    let s0 := s.getD 0 0
    let x := first s0
    if x ≥ 0xF0 then
      let mask := if (x <<< 31) % 2 ^ 32 ≥ 2 ^ 31 then 0xFFFFFFFF else 0
      ((s0 &&& (0xFFFFFFFF ^^^ mask)) ||| (RuneError &&& mask), 1)
    else
      let sz := x &&& 7
      let accept := x >>> 4
      if n < sz then (RuneError, 1)
      else
        let s1 := s.getD 1 0
        if s1 < acceptLo accept || acceptHi accept < s1 then (RuneError, 1)
        else if sz ≤ 2 then (((s0 &&& 0x1F) <<< 6) ||| (s1 &&& 0x3F), 2)
        else
          let s2 := s.getD 2 0
          if s2 < 0x80 || 0xBF < s2 then (RuneError, 1)
          else if sz ≤ 3 then
            (((s0 &&& 0x0F) <<< 12) ||| ((s1 &&& 0x3F) <<< 6) ||| (s2 &&& 0x3F), 3)
          else
            let s3 := s.getD 3 0
            if s3 < 0x80 || 0xBF < s3 then (RuneError, 1)
            else
              (((s0 &&& 0x07) <<< 18) ||| ((s1 &&& 0x3F) <<< 12) ||| ((s2 &&& 0x3F) <<< 6) |||
                (s3 &&& 0x3F), 4)

/-- The byte `"`, the `quote` argument of `strconv.Quote`. -/
def dquote : Nat := 0x22

/-- The byte of the backslash. -/
def backslash : Nat := 0x5C

/-- Go: `lowerhex[n]` in `strconv`, a byte of the string `0123456789abcdef`. -/
def lowerhex (n : Nat) : Nat := ("0123456789abcdef".toList.getD n '0').toNat

/-- Go: `strconv.IsPrint(r)`.  The Latin-1 range is decided by the code itself; for larger
runes the source searches the Unicode tables `isPrint16`, `isNotPrint16`, `isPrint32` and
`isNotPrint32`, whose outcome is the parameter `table`. -/
def IsPrint (table : Nat → Bool) (r : Nat) : Bool :=
  if r ≤ 0xFF then
    if 0x20 ≤ r && r < 0x7F then true
    else if 0xA1 ≤ r then r != 0xAD
    else false
  else table r

/-- Go: `utf8.ValidRune(r)`. -/
def ValidRune (r : Nat) : Bool := r < 0xD800 || (0xDFFF < r && r ≤ 0x10FFFF)

/-- Go: `utf8.appendRuneNonASCII(p, r)`; `byte(x)` is `x % 256`. -/
def appendRuneNonASCII (p : List Nat) (r : Nat) : List Nat :=
  if r ≤ 0x7FF then
    p ++ [0xC0 ||| ((r >>> 6) % 256), 0x80 ||| ((r % 256) &&& 0x3F)]
  else if r > 0x10FFFF || (0xD800 ≤ r && r ≤ 0xDFFF) then
    p ++ [0xE0 ||| ((RuneError >>> 12) % 256), 0x80 ||| (((RuneError >>> 6) % 256) &&& 0x3F),
      0x80 ||| ((RuneError % 256) &&& 0x3F)]
  else if r ≤ 0xFFFF then
    p ++ [0xE0 ||| ((r >>> 12) % 256), 0x80 ||| (((r >>> 6) % 256) &&& 0x3F),
      0x80 ||| ((r % 256) &&& 0x3F)]
  else
    p ++ [0xF0 ||| ((r >>> 18) % 256), 0x80 ||| (((r >>> 12) % 256) &&& 0x3F),
      0x80 ||| (((r >>> 6) % 256) &&& 0x3F), 0x80 ||| ((r % 256) &&& 0x3F)]

/-- Go: `utf8.AppendRune(p, r)`. -/
def AppendRune (p : List Nat) (r : Nat) : List Nat :=
  if r ≤ 0x7F then p ++ [r % 256] else appendRuneNonASCII p r

/-- The loop `for s := hi; s >= 0; s -= 4 { buf = append(buf, lowerhex[r>>uint(s)&0xF]) }` of
`strconv.appendEscapedRune`, for `digits` hexadecimal digits (`hi = 4 * (digits - 1)`). -/
def appendHex (buf : List Nat) (r : Nat) : Nat → List Nat
  | 0 => buf
  | digits + 1 => appendHex (buf ++ [lowerhex ((r >>> (4 * digits)) &&& 0xF)]) r digits

/-- Go: `strconv.appendEscapedRune(buf, r, quote, ASCIIonly, graphicOnly)` with `quote = '"'`
and both flags false, as `strconv.Quote` calls it. -/
def appendEscapedRune (table : Nat → Bool) (buf : List Nat) (r : Nat) : List Nat :=
  if r == dquote || r == backslash then buf ++ [backslash, r % 256]
  else if IsPrint table r then AppendRune buf r
  else if r == 7 then buf ++ [backslash, 'a'.toNat]
  else if r == 8 then buf ++ [backslash, 'b'.toNat]
  else if r == 12 then buf ++ [backslash, 'f'.toNat]
  else if r == 10 then buf ++ [backslash, 'n'.toNat]
  else if r == 13 then buf ++ [backslash, 'r'.toNat]
  else if r == 9 then buf ++ [backslash, 't'.toNat]
  else if r == 11 then buf ++ [backslash, 'v'.toNat]
  else if r < 0x20 || r == 0x7F then
    buf ++ [backslash, 'x'.toNat, lowerhex ((r % 256) >>> 4), lowerhex ((r % 256) &&& 0xF)]
  else if !ValidRune r then appendHex (buf ++ [backslash, 'u'.toNat]) 0xFFFD 4
  else if r < 0x10000 then appendHex (buf ++ [backslash, 'u'.toNat]) r 4
  else appendHex (buf ++ [backslash, 'U'.toNat]) r 8

/-- The loop `for width := 0; len(s) > 0; s = s[width:]` of `strconv.appendQuotedWith`. -/
def quoteLoop (table : Nat → Bool) (s : List Nat) (buf : List Nat) : List Nat :=
  match s with
  | [] => buf
  | s0 :: rest =>
    let d := if s0 ≥ RuneSelf then DecodeRuneInString (s0 :: rest) else (s0, 1)
    if d.2 == 1 && d.1 == RuneError then
      quoteLoop table ((s0 :: rest).drop d.2)
        (buf ++ [backslash, 'x'.toNat, lowerhex (s0 >>> 4), lowerhex (s0 &&& 0xF)])
    else
      quoteLoop table ((s0 :: rest).drop d.2) (appendEscapedRune table buf d.1)
termination_by s.length
decreasing_by
  all_goals simp_wf
  all_goals
    have hw : 0 < (if s0 ≥ RuneSelf then DecodeRuneInString (s0 :: rest) else (s0, 1)).2 := by
      split
      · unfold DecodeRuneInString
        simp only [List.length_cons]
        repeat' split
        all_goals first | (simp; done) | omega
      · simp
    exact hw

/-- Go: `strconv.Quote(s)`, the formatting verb `%q` of `fmt` for a string. -/
def Quote (table : Nat → Bool) (s : List Nat) : List Nat :=
  quoteLoop table s [dquote] ++ [dquote]

/-- The bytes of a string of ASCII characters. -/
def asciiBytes (s : String) : List Nat := s.toList.map Char.toNat

/-- Go: `func (e Event) String() string { return fmt.Sprintf("%q: %s", e.Name, e.Op.String()) }`. -/
def Event.String (table : Nat → Bool) (e : Event) : List Nat :=
  Quote table e.Name ++ asciiBytes ": " ++ asciiBytes (Fsnotify.Op.String e.Op)

/-! ## Resource limit (`internal/unix.go`) -/

/-- Go: `syscall.Rlimit`, two `uint64` fields. -/
structure Rlimit where
  Cur : Nat
  Max : Nat
deriving DecidableEq

/-- The state `SetRlimit` works on: the soft and hard limit on open files kept by the operating
system for the process, the update requests the operating system has received so far (the
arguments of the calls to `setrlimit`, oldest first), and the package variable `maxfiles`. -/
structure Proc where
  soft : Nat
  hard : Nat
  updates : List Rlimit
  maxfiles : Nat
deriving DecidableEq

/-- How the operating system answers the two system calls: the error of the limit query and
the error of the limit update, `none` when the call succeeds. -/
structure Env where
  getrlimitErr : Option Nat
  setrlimitErr : Option Nat
deriving DecidableEq

/-- Go: `syscall.Getrlimit(syscall.RLIMIT_NOFILE, &l)`.  On success `l` is filled with the
limits; on failure `l` is left as it was.  The result is the new `l` and the error. -/
def Getrlimit (env : Env) (p : Proc) (l : Rlimit) : Rlimit × Option Nat :=
  match env.getrlimitErr with
  | some e => (l, some e)
  | none => (Rlimit.mk p.soft p.hard, none)

/-- Go: `syscall.Setrlimit(syscall.RLIMIT_NOFILE, &l)`.  The request is recorded; on success
the limits of the process become those of `l`, on failure they stay. -/
def Setrlimit (env : Env) (p : Proc) (l : Rlimit) : Proc × Option Nat :=
  match env.setrlimitErr with
  | some e => (Proc.mk p.soft p.hard (p.updates ++ [l]) p.maxfiles, some e)
  | none => (Proc.mk l.Cur l.Max (p.updates ++ [l]) p.maxfiles, none)

/-- Go: `func SetRlimit()`. -/
def SetRlimit (env : Env) (p : Proc) : Proc :=
  let l : Rlimit := Rlimit.mk 0 0
  let r := Getrlimit env p l
  let l := r.1
  let err := r.2
  if err == none && l.Cur != l.Max then
    let l := Rlimit.mk l.Max l.Max
    let p := (Setrlimit env p l).1
    Proc.mk p.soft p.hard p.updates l.Cur
  else
    Proc.mk p.soft p.hard p.updates l.Cur

/-- Go: `func Maxfiles() uint64 { return maxfiles }`. -/
def Maxfiles (p : Proc) : Nat := p.maxfiles

/-! ## What the specification says about a file tree -/

/-- A name a directory entry can have: not empty, without a separator, and neither `.` nor
`..`. -/
def validName (name : List Char) : Bool :=
  name != [] && !name.contains '/' && name != ".".toList && name != "..".toList

/-- Whether a listing has an entry called `name`. -/
def Entries.hasName : Entries → List Char → Bool
  | .nil, _ => false
  | .cons name' _ rest, name => name' == name || rest.hasName name

mutual
/-- Every entry name in the subtree is valid and the names within one directory are pairwise
different. -/
def Node.wellFormed : Node → Bool
  | .file => true
  | .dir entries _ => entries.wellFormed
/-- Well-formedness of a listing, see `Node.wellFormed`. -/
def Entries.wellFormed : Entries → Bool
  | .nil => true
  | .cons name node rest =>
    validName name && !rest.hasName name && node.wellFormed && rest.wellFormed
end

mutual
/-- No directory of the subtree has a read error. -/
def Node.readable : Node → Bool
  | .file => true
  | .dir entries readErr => readErr.isNone && entries.readable
/-- No directory below the listing has a read error. -/
def Entries.readable : Entries → Bool
  | .nil => true
  | .cons _ node rest => node.readable && rest.readable
end

mutual
/-- The first read error in walk order, if any. -/
def Node.firstReadErr : Node → Option Nat
  | .file => none
  | .dir entries readErr =>
    match readErr with
    | some e => some e
    | none => entries.firstReadErr
/-- The first read error below a listing in walk order, if any. -/
def Entries.firstReadErr : Entries → Option Nat
  | .nil => none
  | .cons _ node rest =>
    match node.firstReadErr with
    | some e => some e
    | none => rest.firstReadErr
end

mutual
/-- The number of directories in the subtree, its root included. -/
def Node.countDirs : Node → Nat
  | .file => 0
  | .dir entries _ => entries.countDirs + 1
/-- The number of directories below a listing. -/
def Entries.countDirs : Entries → Nat
  | .nil => 0
  | .cons _ node rest => node.countDirs + rest.countDirs
end

mutual
/-- Every object of the subtree found at `path`, with its path and whether it is a directory.
The path of an entry is the path of its directory joined with its name. -/
def Node.listing (path : List Char) : Node → List (List Char × Bool)
  | .file => [(path, false)]
  | .dir entries _ => (path, true) :: entries.listing path
/-- The objects below the listing of the directory at `path`. -/
def Entries.listing (path : List Char) : Entries → List (List Char × Bool)
  | .nil => []
  | .cons name node rest => node.listing (Join path name) ++ rest.listing path
end

/-- The first read error the walk meets: the error of `os.Lstat` on the root, or else the
first read error of a directory in walk order. -/
def walkReadErr (lstat : Except Nat Node) : Option Nat :=
  match lstat with
  | .error e => some e
  | .ok d => d.firstReadErr

/-- The tree found at the root, if there is one, is well-formed. -/
def statWellFormed (lstat : Except Nat Node) : Bool :=
  match lstat with
  | .error _ => true
  | .ok d => d.wellFormed

/-- Go's `<` on strings, the order in which `os.ReadDir` sorts entry names: byte by byte,
which for UTF-8 is rune by rune. -/
def strLess : List Char → List Char → Bool
  | [], [] => false
  | [], _ :: _ => true
  | _ :: _, [] => false
  | a :: as, b :: bs => decide (a.toNat < b.toNat) || (a == b && strLess as bs)

/-- The place of an object in a tree is the list of entry names leading to it from the root.
`posBefore x y` says that `x` comes before `y` in pre-order with siblings in the order of their
names: `x` is a proper ancestor of `y`, or at the first name where they differ the name of `x`
is the smaller one. -/
def posBefore : List (List Char) → List (List Char) → Bool
  | [], [] => false
  | [], _ :: _ => true
  | _ :: _, [] => false
  | a :: as, b :: bs => strLess a b || (a == b && posBefore as bs)

/-- The names of a listing, in its order. -/
def Entries.names : Entries → List (List Char)
  | .nil => []
  | .cons name _ rest => name :: rest.names

mutual
/-- Every listing in the subtree is in strictly increasing order of entry names, as
`os.ReadDir` returns it. -/
def Node.sorted : Node → Bool
  | .file => true
  | .dir entries _ => entries.sorted
/-- Sortedness of a listing and of the subtrees below it, see `Node.sorted`. -/
def Entries.sorted : Entries → Bool
  | .nil => true
  | .cons name node rest =>
    rest.names.all (fun n => strLess name n) && node.sorted && rest.sorted
end

mutual
/-- The places of the directories of a subtree, relative to its root. -/
def Node.dirPlaces : Node → List (List (List Char))
  | .file => []
  | .dir entries _ => [] :: entries.dirPlaces
/-- The places of the directories below a listing, relative to the directory listed. -/
def Entries.dirPlaces : Entries → List (List (List Char))
  | .nil => []
  | .cons name node rest => node.dirPlaces.map (fun ns => name :: ns) ++ rest.dirPlaces
end

/-- One step of sorting a listing by entry name: the entry is put before the first entry with
a larger name. -/
def Entries.insert (name : List Char) (node : Node) : Entries → Entries
  | .nil => .cons name node .nil
  | .cons name' node' rest =>
    if strLess name name' then .cons name node (.cons name' node' rest)
    else .cons name' node' (Entries.insert name node rest)

/-- Go: the sort by file name that `os.ReadDir` applies to the entries it has read (the names
of one directory are pairwise different, so every sorting algorithm gives this result). -/
def Entries.sort : Entries → Entries
  | .nil => .nil
  | .cons name node rest => Entries.insert name node rest.sort

mutual
/-- A tree as `os.ReadDir` presents it: every listing, given in the order in which the
directory stores its entries, is sorted by file name. -/
def Node.readDirView : Node → Node
  | .file => .file
  | .dir entries readErr => .dir entries.readDirView.sort readErr
/-- The subtrees of a listing as `os.ReadDir` presents them. -/
def Entries.readDirView : Entries → Entries
  | .nil => .nil
  | .cons name node rest => .cons name node.readDirView rest.readDirView
end

/-- Every object of the listing itself satisfies `P`. -/
def Entries.allNodes (P : Node → Bool) : Entries → Bool
  | .nil => true
  | .cons _ node rest => P node && rest.allNodes P

/-- The path of the object at the place `ns` below `root`: the names joined on one by one. -/
def pathAt (root : List Char) (ns : List (List Char)) : List Char := ns.foldl Join root

/-- The five flags. -/
def allFlags : List Op := [Create, Write, Remove, Rename, Chmod]

/-- The mask built as the OR of the flags in `S`. -/
def orAll (S : List Op) : Op := S.foldl (fun m x => m ||| x) 0

/-! ## What the quoting of a name writes -/

/-- The `width` hexadecimal digits of `n`, most significant first, by division. -/
def hexDigits (width n : Nat) : List Nat :=
  (List.range width).reverse.map (fun i => lowerhex (n / 16 ^ i % 16))

/-- What the quoting reads in a name: a decoded code point, or a byte that is not part of a
well-formed UTF-8 sequence. -/
inductive Piece where
  | rune (r : Nat)
  | illFormed (b : Nat)
deriving DecidableEq, Repr

/-- The name read from the left as code points and ill-formed bytes. -/
def pieces (s : List Nat) : List Piece :=
  match s with
  | [] => []
  | s0 :: rest =>
    let d := if s0 ≥ RuneSelf then DecodeRuneInString (s0 :: rest) else (s0, 1)
    if d.2 == 1 && d.1 == RuneError then
      Piece.illFormed s0 :: pieces ((s0 :: rest).drop d.2)
    else
      Piece.rune d.1 :: pieces ((s0 :: rest).drop d.2)
termination_by s.length
decreasing_by
  all_goals simp_wf
  all_goals
    have hw : 0 < (if s0 ≥ RuneSelf then DecodeRuneInString (s0 :: rest) else (s0, 1)).2 := by
      split
      · unfold DecodeRuneInString
        simp only [List.length_cons]
        repeat' split
        all_goals first | (simp; done) | omega
      · simp
    exact hw

/-- The escape of one code point in the syntax of a Go string literal, with the hexadecimal
digits of `hexDigits`. -/
def escapeRune (table : Nat → Bool) (r : Nat) : List Nat :=
  if r = 0x22 then [0x5C, 0x22]
  else if r = 0x5C then [0x5C, 0x5C]
  else if IsPrint table r then AppendRune [] r
  else if r = 7 then (0x5C :: asciiBytes "a")
  else if r = 8 then (0x5C :: asciiBytes "b")
  else if r = 12 then (0x5C :: asciiBytes "f")
  else if r = 10 then (0x5C :: asciiBytes "n")
  else if r = 13 then (0x5C :: asciiBytes "r")
  else if r = 9 then (0x5C :: asciiBytes "t")
  else if r = 11 then (0x5C :: asciiBytes "v")
  else if r < 0x20 ∨ r = 0x7F then (0x5C :: asciiBytes "x") ++ hexDigits 2 r
  else if 0x10FFFF < r ∨ (0xD800 ≤ r ∧ r ≤ 0xDFFF) then (0x5C :: asciiBytes "ufffd")
  else if r < 0x10000 then (0x5C :: asciiBytes "u") ++ hexDigits 4 r
  else (0x5C :: asciiBytes "U") ++ hexDigits 8 r

/-- The escape of one piece of a name. -/
def Piece.escape (table : Nat → Bool) : Piece → List Nat
  | .rune r => escapeRune table r
  | .illFormed b => (0x5C :: asciiBytes "x") ++ [lowerhex (b / 16), lowerhex (b % 16)]

/-- The escape of one ASCII byte, written out without the Unicode tables. -/
def asciiEscape (b : Nat) : List Nat :=
  if b = 0x22 then [0x5C, 0x22]
  else if b = 0x5C then [0x5C, 0x5C]
  else if 0x20 ≤ b ∧ b < 0x7F then [b]
  else if b = 7 then (0x5C :: asciiBytes "a")
  else if b = 8 then (0x5C :: asciiBytes "b")
  else if b = 12 then (0x5C :: asciiBytes "f")
  else if b = 10 then (0x5C :: asciiBytes "n")
  else if b = 13 then (0x5C :: asciiBytes "r")
  else if b = 9 then (0x5C :: asciiBytes "t")
  else if b = 11 then (0x5C :: asciiBytes "v")
  else (0x5C :: asciiBytes "x") ++ hexDigits 2 b

/-- A byte that the quoting leaves as it is: printable ASCII other than the double quote and
the backslash. -/
def plainASCII (b : Nat) : Bool := 0x20 ≤ b && b < 0x7F && b != 0x22 && b != 0x5C

/-! ## Auxiliary notions used in the proofs -/

/-- The text `Op.String` produces, as a function of the five flag bits of the mask (bit 0 is
Create, bit 1 Write, bit 2 Remove, bit 3 Rename, bit 4 Chmod). -/
def render5 (b0 b1 b2 b3 b4 : Bool) : String :=
  let b := ""
  let b := if b0 then b ++ "|CREATE" else b
  let b := if b2 then b ++ "|REMOVE" else b
  let b := if b1 then b ++ "|WRITE" else b
  let b := if b3 then b ++ "|RENAME" else b
  let b := if b4 then b ++ "|CHMOD" else b
  if b.length == 0 then "" else b.drop 1

/-- Whether `c :: t` starts with a `.` element. -/
def isDot (c : Char) (t : List Char) : Bool :=
  c == '.' && (t.length == 0 || IsPathSeparator (t.getD 0 '/'))

/-- Whether `c :: t` starts with a `..` element. -/
def isDotDot (c : Char) (t : List Char) : Bool :=
  c == '.' && t.getD 0 '/' == '.' && (t.length == 1 || IsPathSeparator (t.getD 1 '/'))

/-- Appending the path element `e` to the buffer `out`, with a separator if needed. -/
def push (rooted : Bool) (out e : List Char) : List Char :=
  (if (rooted && out.length != 1) || (!rooted && out.length != 0) then out ++ ['/'] else out) ++ e

/-- The buffer before the loop starts: the leading separator of a rooted path. -/
def initOut (r : Bool) : List Char := if r then ['/'] else []

/-- The buffer after the path elements `comps` have been appended one by one. -/
def render (r : Bool) (comps : List (List Char)) : List Char := comps.foldl (push r) (initOut r)

/-- A path element as it occurs in the buffer: not empty and without a separator. -/
def isElem (e : List Char) : Bool := e != [] && e.all notSep

/-- The part of a path the loop reads: everything after the leading separator of a rooted
path. -/
def body (r : Bool) (s : List Char) : List Char := if r then s.drop 1 else s

/-- The shape of `Clean`'s buffer: the root separator of a rooted path, then `k` elements `..`
(none if the path is rooted), then the valid names `cs`, with `dotdot` at the end of the `..`
elements. -/
structure Rep (r : Bool) (k : Nat) (cs : List (List Char)) (out : List Char) (dd : Nat) :
    Prop where
  out_eq : out = render r (List.replicate k ['.', '.'] ++ cs)
  dd_eq : dd = (render r (List.replicate k ['.', '.'])).length
  rooted_k : r = true → k = 0
  valid : ∀ c ∈ cs, validName c = true

/-- The buffer with the separator that `push` puts before a new element. -/
def pushPre (r : Bool) (s : List Char) : List Char :=
  if (r && s.length != 1) || (!r && s.length != 0) then s ++ ['/'] else s

/-- Whether `Clean` treats the path as rooted. -/
def rootedOf (p : List Char) : Bool := IsPathSeparator (p.getD 0 '.')

/-- The final state of `Clean`'s loop on the path `p`. -/
def stateOf (p : List Char) : List Char × Nat :=
  cleanLoop (rootedOf p) (body (rootedOf p) p) (initOut (rootedOf p)) (initOut (rootedOf p)).length

/-- The final buffer of `Clean`'s loop on the path `p`. -/
def pathKey (p : List Char) : List Char := (stateOf p).1

/-- The paths of the directories in a listing of objects. -/
def dirsOf (l : List (List Char × Bool)) : List (List Char) :=
  (l.filter (fun x => x.2)).map Prod.fst

/-- Go: `d.IsDir()` for the object itself. -/
def Node.IsDir : Node → Bool
  | .file => false
  | .dir _ _ => true

/-! ## Theorems: the operation model -/

theorem Op.has_iff_testBit (m f : Op) :
    Op.Has m f = true ↔ ∀ i : Nat, f.testBit i = true → m.testBit i = true := by
  unfold Op.Has
  rw [beq_iff_eq]
  constructor
  · intro h i hi
    have := congrArg (fun x => Nat.testBit x i) h
    simp only [Nat.testBit_and, hi, Bool.and_true] at this
    exact this
  · intro h
    apply Nat.eq_of_testBit_eq
    intro i
    rw [Nat.testBit_and]
    cases hf : f.testBit i
    · simp
    · simp [h i hf]

theorem Op.has_two_pow (m k : Nat) : Op.Has m (2 ^ k) = m.testBit k := by
  cases hb : m.testBit k
  · cases hh : Op.Has m (2 ^ k)
    · rfl
    · have := (Op.has_iff_testBit m (2 ^ k)).1 hh k (by simp [Nat.testBit_two_pow_self])
      rw [hb] at this
      exact absurd this (by decide)
  · rw [Op.has_iff_testBit]
    intro i hi
    rw [Nat.testBit_two_pow] at hi
    have : k = i := by simpa using hi
    subst this
    exact hb

theorem Op.and_two_pow_ne_zero (m k : Nat) : (m &&& 2 ^ k != 0) = m.testBit k := by
  rw [Nat.and_two_pow]
  cases m.testBit k <;> simp

theorem Op.and_31_eq_zero_iff (m : Nat) :
    m &&& 31 = 0 ↔ (m.testBit 0 = false ∧ m.testBit 1 = false ∧ m.testBit 2 = false ∧
      m.testBit 3 = false ∧ m.testBit 4 = false) := by
  have h31 : ∀ i, (31 : Nat).testBit i = decide (i < 5) := fun i =>
    Nat.testBit_two_pow_sub_one 5 i
  constructor
  · intro h
    have key : ∀ i, i < 5 → m.testBit i = false := by
      intro i hi
      have := congrArg (fun x => Nat.testBit x i) h
      simpa [Nat.testBit_and, h31, hi] using this
    exact ⟨key 0 (by omega), key 1 (by omega), key 2 (by omega), key 3 (by omega),
      key 4 (by omega)⟩
  · rintro ⟨h0, h1, h2, h3, h4⟩
    apply Nat.eq_of_testBit_eq
    intro i
    rw [Nat.testBit_and, h31, Nat.zero_testBit]
    by_cases hi : i < 5
    · have : i = 0 ∨ i = 1 ∨ i = 2 ∨ i = 3 ∨ i = 4 := by omega
      rcases this with rfl | rfl | rfl | rfl | rfl <;> simp [*]
    · simp [hi]

/-- C1: `Op.Has m f` is true exactly when every bit that is set in `f` is also set in `m`
(a subset test), for all masks `m` and all flag values `f`, single or compound. -/
theorem Op.Has_iff_subset (m f : Op) :
    Op.Has m f = true ↔ ∀ i : Nat, f.testBit i = true → m.testBit i = true :=
  Op.has_iff_testBit m f

/-- C2: for every mask `m`, `Op.String m` is the names of exactly those of the five flags set in
`m`, in the order CREATE, REMOVE, WRITE, RENAME, CHMOD, joined by a single `"|"`. -/
theorem Op.String_eq_renderSpec (m : Op) : Op.String m = renderSpec m := by
  have h0 : Op.Has m Create = m.testBit 0 := Op.has_two_pow m 0
  have h1 : Op.Has m Write = m.testBit 1 := Op.has_two_pow m 1
  have h2 : Op.Has m Remove = m.testBit 2 := Op.has_two_pow m 2
  have h3 : Op.Has m Rename = m.testBit 3 := Op.has_two_pow m 3
  have h4 : Op.Has m Chmod = m.testBit 4 := Op.has_two_pow m 4
  have g0 : (m &&& Create != 0) = m.testBit 0 := Op.and_two_pow_ne_zero m 0
  have g1 : (m &&& Write != 0) = m.testBit 1 := Op.and_two_pow_ne_zero m 1
  have g2 : (m &&& Remove != 0) = m.testBit 2 := Op.and_two_pow_ne_zero m 2
  have g3 : (m &&& Rename != 0) = m.testBit 3 := Op.and_two_pow_ne_zero m 3
  have g4 : (m &&& Chmod != 0) = m.testBit 4 := Op.and_two_pow_ne_zero m 4
  unfold Op.String renderSpec canonicalOrder
  simp only [List.filter, h0, h1, h2, h3, h4, g0, g1, g2, g3, g4]
  cases m.testBit 0 <;> cases m.testBit 1 <;> cases m.testBit 2 <;> cases m.testBit 3 <;>
    cases m.testBit 4 <;> decide

/-- C3 fails as stated: the mask `32` (a 32-bit value with only bit 5 set) is not zero, yet
`Op.String` renders it as the empty string. -/
theorem Op.String_empty_iff_zero_counterexample :
    ¬ (Op.String 32 = "" ↔ (32 : Op) = 0) := by
  decide

/-- C3, amended: for every mask `m`, `Op.String m` is the empty string exactly when none of the
five flag bits is set in `m`, that is when `m &&& 31 = 0`. -/
theorem Op.String_empty_iff (m : Op) : Op.String m = "" ↔ m &&& 31 = 0 := by
  have h0 : Op.Has m Create = m.testBit 0 := Op.has_two_pow m 0
  have h1 : Op.Has m Write = m.testBit 1 := Op.has_two_pow m 1
  have h2 : Op.Has m Remove = m.testBit 2 := Op.has_two_pow m 2
  have h3 : Op.Has m Rename = m.testBit 3 := Op.has_two_pow m 3
  have h4 : Op.Has m Chmod = m.testBit 4 := Op.has_two_pow m 4
  rw [Op.and_31_eq_zero_iff]
  unfold Op.String
  simp only [h0, h1, h2, h3, h4]
  cases m.testBit 0 <;> cases m.testBit 1 <;> cases m.testBit 2 <;> cases m.testBit 3 <;>
    cases m.testBit 4 <;> decide

/-! ## Theorems: `filepath.Clean` and `filepath.Join` -/

theorem cleanLoop_nil (r : Bool) (out : List Char) (dd : Nat) :
    cleanLoop r [] out dd = (out, dd) := by
  rw [cleanLoop]

theorem cleanLoop_cons_sep (r : Bool) (c : Char) (t out : List Char) (dd : Nat)
    (h : IsPathSeparator c = true) :
    cleanLoop r (c :: t) out dd = cleanLoop r t out dd := by
  rw [cleanLoop, if_pos h]

theorem cleanLoop_cons_dot (r : Bool) (c : Char) (t out : List Char) (dd : Nat)
    (h : IsPathSeparator c = false) (h1 : isDot c t = true) :
    cleanLoop r (c :: t) out dd = cleanLoop r t out dd := by
  rw [cleanLoop, if_neg (by simp [h])]
  unfold isDot at h1
  rw [if_pos h1]

theorem push_false (out e : List Char) :
    push false out e = (if out.length > 0 then out ++ ['/'] else out) ++ e := by
  cases out <;> simp [push]

theorem cleanLoop_cons_dotdot (r : Bool) (c : Char) (t out : List Char) (dd : Nat)
    (h : IsPathSeparator c = false) (h1 : isDot c t = false) (h2 : isDotDot c t = true) :
    cleanLoop r (c :: t) out dd =
      if out.length > dd then
        cleanLoop r (t.drop 1) (out.take (backtrack out dd (out.length - 1))) dd
      else if r = false then
        cleanLoop r (t.drop 1) (push r out ['.', '.']) (push r out ['.', '.']).length
      else cleanLoop r (t.drop 1) out dd := by
  rw [cleanLoop, if_neg (by simp [h])]
  unfold isDot at h1
  unfold isDotDot at h2
  rw [if_neg (by rw [h1]; simp), if_pos h2]
  cases r
  · rw [push_false]
    simp only [Bool.not_false, if_true]
  · simp

theorem cleanLoop_cons_elem (r : Bool) (c : Char) (t out : List Char) (dd : Nat)
    (h : IsPathSeparator c = false) (h1 : isDot c t = false) (h2 : isDotDot c t = false) :
    cleanLoop r (c :: t) out dd =
      cleanLoop r (t.dropWhile notSep) (push r out (c :: t.takeWhile notSep)) dd := by
  rw [cleanLoop, if_neg (by simp [h])]
  unfold isDot at h1
  unfold isDotDot at h2
  rw [if_neg (by rw [h1]; simp), if_neg (by rw [h2]; simp)]
  simp only [push]

theorem isDot_append_sep (c : Char) (t y : List Char) :
    isDot c (t ++ '/' :: y) = isDot c t := by
  cases t <;> simp [isDot, IsPathSeparator]

theorem isDotDot_append_sep (c : Char) (t y : List Char) :
    isDotDot c (t ++ '/' :: y) = isDotDot c t := by
  rcases t with _ | ⟨a, _ | ⟨b, t⟩⟩ <;> simp [isDotDot, IsPathSeparator]

theorem isDotDot_ne_nil {c : Char} {t : List Char} (h : isDotDot c t = true) : t ≠ [] := by
  rintro rfl
  simp [isDotDot] at h

theorem takeWhile_notSep_append_sep (t y : List Char) :
    (t ++ '/' :: y).takeWhile notSep = t.takeWhile notSep := by
  induction t with
  | nil => simp [notSep, IsPathSeparator]
  | cons a t ih =>
    simp only [List.cons_append, List.takeWhile]
    cases notSep a <;> simp [ih]

theorem dropWhile_notSep_append_sep (t y : List Char) :
    (t ++ '/' :: y).dropWhile notSep = t.dropWhile notSep ++ '/' :: y := by
  induction t with
  | nil => simp [notSep, IsPathSeparator]
  | cons a t ih =>
    simp only [List.cons_append, List.dropWhile]
    cases notSep a <;> simp [ih]

/-- Reading `x`, a separator and then `y` is reading `x` and then reading `y` from the state
reached: the loop never looks beyond the next separator. -/
theorem cleanLoop_append_sep (r : Bool) (x y out : List Char) (dd : Nat) :
    cleanLoop r (x ++ '/' :: y) out dd =
      cleanLoop r y (cleanLoop r x out dd).1 (cleanLoop r x out dd).2 := by
  induction x, out, dd using cleanLoop.induct r with
  | case1 out dd =>
    rw [cleanLoop_nil, List.nil_append, cleanLoop_cons_sep _ _ _ _ _ (by decide)]
  | case2 out dd c t h ih =>
    rw [List.cons_append, cleanLoop_cons_sep _ _ _ _ _ h, cleanLoop_cons_sep _ _ _ _ _ h, ih]
  | case3 out dd c t h h1 ih =>
    have h0 : IsPathSeparator c = false := by simpa using h
    have h1a : isDot c t = true := h1
    rw [List.cons_append, cleanLoop_cons_dot _ _ _ _ _ h0 (by rw [isDot_append_sep]; exact h1a),
      cleanLoop_cons_dot _ _ _ _ _ h0 h1a, ih]
  | case4 out dd c t h h1 h2 hlen ih =>
    have h0 : IsPathSeparator c = false := by simpa using h
    have h1a : isDot c t = false := by simpa [isDot] using h1
    have h2a : isDotDot c t = true := h2
    have hd : (t ++ '/' :: y).drop 1 = t.drop 1 ++ '/' :: y := by
      cases t with
      | nil => exact absurd rfl (isDotDot_ne_nil h2a)
      | cons a t => rfl
    rw [List.cons_append,
      cleanLoop_cons_dotdot _ _ _ _ _ h0 (by rw [isDot_append_sep]; exact h1a)
        (by rw [isDotDot_append_sep]; exact h2a),
      cleanLoop_cons_dotdot _ _ _ _ _ h0 h1a h2a, if_pos hlen, if_pos hlen, hd, ih]
  | case5 out dd c t h h1 h2 hlen hr out1 out2 ih =>
    have h0 : IsPathSeparator c = false := by simpa using h
    have h1a : isDot c t = false := by simpa [isDot] using h1
    have h2a : isDotDot c t = true := h2
    have hr0 : r = false := by simpa using hr
    have hd : (t ++ '/' :: y).drop 1 = t.drop 1 ++ '/' :: y := by
      cases t with
      | nil => exact absurd rfl (isDotDot_ne_nil h2a)
      | cons a t => rfl
    have ho : out2 = push r out ['.', '.'] := by
      subst hr0
      rw [push_false]
      simp only [out2, out1, dite_eq_ite]
    rw [List.cons_append,
      cleanLoop_cons_dotdot _ _ _ _ _ h0 (by rw [isDot_append_sep]; exact h1a)
        (by rw [isDotDot_append_sep]; exact h2a),
      cleanLoop_cons_dotdot _ _ _ _ _ h0 h1a h2a, if_neg hlen, if_neg hlen, if_pos hr0,
      if_pos hr0, hd, ← ho, ih]
  | case6 out dd c t h h1 h2 hlen hr ih =>
    have h0 : IsPathSeparator c = false := by simpa using h
    have h1a : isDot c t = false := by simpa [isDot] using h1
    have h2a : isDotDot c t = true := h2
    have hr0 : ¬ r = false := by simpa using hr
    have hd : (t ++ '/' :: y).drop 1 = t.drop 1 ++ '/' :: y := by
      cases t with
      | nil => exact absurd rfl (isDotDot_ne_nil h2a)
      | cons a t => rfl
    rw [List.cons_append,
      cleanLoop_cons_dotdot _ _ _ _ _ h0 (by rw [isDot_append_sep]; exact h1a)
        (by rw [isDotDot_append_sep]; exact h2a),
      cleanLoop_cons_dotdot _ _ _ _ _ h0 h1a h2a, if_neg hlen, if_neg hlen, if_neg hr0,
      if_neg hr0, hd, ih]
  | case7 out dd c t h h1 h2 out1 ih =>
    have h0 : IsPathSeparator c = false := by simpa using h
    have h1a : isDot c t = false := by simpa [isDot] using h1
    have h2a : isDotDot c t = false := by simpa [isDotDot] using h2
    have ho : out1 ++ c :: t.takeWhile notSep = push r out (c :: t.takeWhile notSep) := rfl
    rw [List.cons_append,
      cleanLoop_cons_elem _ _ _ _ _ h0 (by rw [isDot_append_sep]; exact h1a)
        (by rw [isDotDot_append_sep]; exact h2a),
      cleanLoop_cons_elem _ _ _ _ _ h0 h1a h2a, takeWhile_notSep_append_sep,
      dropWhile_notSep_append_sep, ← ho, ih]

theorem validName_iff (n : List Char) :
    validName n = true ↔
      n ≠ [] ∧ (∀ x ∈ n, notSep x = true) ∧ n ≠ ['.'] ∧ n ≠ ['.', '.'] := by
  simp [validName, notSep, IsPathSeparator, and_assoc]
  intro _ _ _
  constructor
  · intro h x hx hx2
    exact h (hx2 ▸ hx)
  · intro h hx
    exact h _ hx rfl

theorem isElem_iff (e : List Char) :
    isElem e = true ↔ e ≠ [] ∧ ∀ x ∈ e, notSep x = true := by
  simp [isElem]

theorem validName_isElem {n : List Char} (h : validName n = true) : isElem n = true := by
  rw [validName_iff] at h
  rw [isElem_iff]
  exact ⟨h.1, h.2.1⟩

theorem isElem_dotdot : isElem ['.', '.'] = true := by decide

theorem takeWhile_eq_self_of_all {p : Char → Bool} {l : List Char} (h : ∀ x ∈ l, p x = true) :
    l.takeWhile p = l := by
  induction l with
  | nil => rfl
  | cons a l ih =>
    rw [List.takeWhile_cons, if_pos (h a (List.mem_cons_self _ _)),
      ih (fun x hx => h x (List.mem_cons_of_mem _ hx))]

theorem dropWhile_eq_nil_of_all {p : Char → Bool} {l : List Char} (h : ∀ x ∈ l, p x = true) :
    l.dropWhile p = [] := by
  induction l with
  | nil => rfl
  | cons a l ih =>
    rw [List.dropWhile_cons, if_pos (h a (List.mem_cons_self _ _)),
      ih (fun x hx => h x (List.mem_cons_of_mem _ hx))]

/-- Reading a valid entry name appends it to the buffer as one path element. -/
theorem cleanLoop_validName (r : Bool) (n out : List Char) (dd : Nat)
    (h : validName n = true) : cleanLoop r n out dd = (push r out n, dd) := by
  rw [validName_iff] at h
  obtain ⟨hne, hall, h1, h2⟩ := h
  cases n with
  | nil => exact absurd rfl hne
  | cons c t =>
    have hc : IsPathSeparator c = false := by
      have := hall c (List.mem_cons_self _ _)
      simpa [notSep] using this
    have ht : ∀ x ∈ t, notSep x = true := fun x hx => hall x (List.mem_cons_of_mem _ hx)
    have hd1 : isDot c t = false := by
      rcases t with _ | ⟨a, t⟩
      · have : c ≠ '.' := fun hc => h1 (by rw [hc])
        simp [isDot, this]
      · have := ht a (List.mem_cons_self _ _)
        simp only [notSep, Bool.not_eq_true'] at this
        simp [isDot, this]
    have hd2 : isDotDot c t = false := by
      rcases t with _ | ⟨a, _ | ⟨b, t⟩⟩
      · simp [isDotDot]
      · have : ¬ (c = '.' ∧ a = '.') := fun hc => h2 (by rw [hc.1, hc.2])
        simp only [isDotDot, List.getD_cons_zero, List.length_singleton, beq_self_eq_true,
          Bool.true_or, Bool.and_true, Bool.and_eq_false_imp, beq_iff_eq]
        intro hc
        have ha : a ≠ '.' := fun ha => this ⟨hc, ha⟩
        simpa using ha
      · have := ht b (List.mem_cons_of_mem _ (List.mem_cons_self _ _))
        simp only [notSep, Bool.not_eq_true'] at this
        simp [isDotDot, this]
    rw [cleanLoop_cons_elem _ _ _ _ _ hc hd1 hd2, takeWhile_eq_self_of_all ht,
      dropWhile_eq_nil_of_all ht, cleanLoop_nil]

/-- Reading `..` with nothing to backtrack over, on a path that is not rooted, appends `..`
and moves `dotdot` to the end of the buffer. -/
theorem cleanLoop_dotdot_append (out : List Char) (dd : Nat) (h : ¬ out.length > dd) :
    cleanLoop false ['.', '.'] out dd =
      (push false out ['.', '.'], (push false out ['.', '.']).length) := by
  rw [cleanLoop_cons_dotdot _ _ _ _ _ (by decide) (by decide) (by decide), if_neg h,
    if_pos rfl]
  exact cleanLoop_nil _ _ _

theorem push_length_ge (r : Bool) (out e : List Char) : out.length ≤ (push r out e).length := by
  unfold push
  split <;> simp only [List.length_append, List.length_singleton] <;> omega

theorem push_length_gt (r : Bool) (out e : List Char) (h : e ≠ []) :
    out.length < (push r out e).length := by
  have : 0 < e.length := List.length_pos.2 h
  unfold push
  split <;> simp only [List.length_append, List.length_singleton] <;> omega

theorem foldl_push_length_ge (r : Bool) (B : List (List Char)) (out : List Char) :
    out.length ≤ (B.foldl (push r) out).length := by
  induction B generalizing out with
  | nil => exact le_refl _
  | cons e B ih => exact le_trans (push_length_ge r out e) (ih _)

theorem render_append (r : Bool) (A B : List (List Char)) :
    render r (A ++ B) = B.foldl (push r) (render r A) := by
  simp [render, List.foldl_append]

theorem render_snoc (r : Bool) (A : List (List Char)) (e : List Char) :
    render r (A ++ [e]) = push r (render r A) e := by
  simp [render, List.foldl_append]

theorem render_length_le_append (r : Bool) (A B : List (List Char)) :
    (render r A).length ≤ (render r (A ++ B)).length := by
  rw [render_append]
  exact foldl_push_length_ge r B _

theorem backtrack_eq (out : List Char) (dd w0 : Nat) (hdd : dd ≤ w0)
    (hstop : w0 = dd ∨ IsPathSeparator (out.getD w0 '/') = true) :
    ∀ j, (∀ i, w0 < i → i ≤ w0 + j → IsPathSeparator (out.getD i '/') = false) →
      backtrack out dd (w0 + j) = w0 := by
  intro j
  induction j with
  | zero =>
    intro _
    cases w0 with
    | zero => rfl
    | succ w =>
      show backtrack out dd (w + 1) = w + 1
      unfold backtrack
      rcases hstop with h | h
      · rw [if_neg (by simp; omega)]
      · rw [if_neg (by rw [h]; simp)]
  | succ j ih =>
    intro hall
    show backtrack out dd (w0 + j + 1) = w0
    unfold backtrack
    have h1 := hall (w0 + j + 1) (by omega) (by omega)
    rw [if_pos (by rw [h1]; simp; omega)]
    exact ih (fun i hi hi2 => hall i hi (by omega))

theorem backtrack_push (r : Bool) (o e : List Char) (dd : Nat) (he : isElem e = true)
    (hdd : dd ≤ o.length)
    (hno : ((r && o.length != 1) || (!r && o.length != 0)) = false → o.length = dd) :
    (push r o e).take (backtrack (push r o e) dd ((push r o e).length - 1)) = o := by
  rw [isElem_iff] at he
  obtain ⟨hne, hall⟩ := he
  have hpos : 0 < e.length := List.length_pos.2 hne
  have hsep : ∀ i, i < e.length → IsPathSeparator (e.getD i '/') = false := by
    intro i hi
    have := hall (e.get ⟨i, hi⟩) (List.get_mem _ _ _)
    rw [List.getD_eq_getElem _ _ hi]
    simpa [notSep] using this
  unfold push
  split
  · next hs =>
    have hlen : (o ++ ['/'] ++ e).length - 1 = o.length + e.length := by
      simp only [List.length_append, List.length_singleton]; omega
    have hsl : IsPathSeparator ((o ++ ['/'] ++ e).getD o.length '/') = true := by
      rw [List.append_assoc, List.getD_append_right _ _ _ _ (le_refl _), Nat.sub_self]
      rfl
    rw [hlen, backtrack_eq _ dd o.length hdd (Or.inr hsl) e.length]
    · simp
    · intro i hi hi2
      have : (o ++ ['/'] ++ e).getD i '/' = e.getD (i - o.length - 1) '/' := by
        rw [List.getD_append_right _ _ _ _ (by simp; omega)]
        congr 1
        simp only [List.length_append, List.length_singleton]; omega
      rw [this]
      exact hsep _ (by omega)
  · next hs =>
    have hs2 := hno (by simpa using hs)
    have hlen : (o ++ e).length - 1 = o.length + (e.length - 1) := by
      simp only [List.length_append]; omega
    rw [hlen, backtrack_eq _ dd o.length hdd (Or.inl hs2) (e.length - 1)]
    · simp
    · intro i hi hi2
      rw [List.getD_append_right _ _ _ _ (by omega)]
      exact hsep _ (by omega)

theorem Rep.init (r : Bool) : Rep r 0 [] (initOut r) (initOut r).length :=
  ⟨rfl, rfl, fun _ => rfl, fun _ h => absurd h (List.not_mem_nil _)⟩

theorem initOut_length_le_render (r : Bool) (A : List (List Char)) :
    (initOut r).length ≤ (render r A).length :=
  foldl_push_length_ge r A _

theorem Rep.dd_le {r : Bool} {k : Nat} {cs : List (List Char)} {out : List Char} {dd : Nat}
    (h : Rep r k cs out dd) : dd ≤ out.length := by
  rw [h.out_eq, h.dd_eq]
  exact render_length_le_append r _ _

theorem eq_nil_or_snoc {α : Type} (l : List α) : l = [] ∨ ∃ L b, l = L ++ [b] := by
  rcases List.eq_nil_or_concat l with h | ⟨L, b, h⟩
  · exact Or.inl h
  · exact Or.inr ⟨L, b, by rw [h, List.concat_eq_append]⟩

theorem Rep.cs_eq_nil {r : Bool} {k : Nat} {cs : List (List Char)} {out : List Char} {dd : Nat}
    (h : Rep r k cs out dd) (hlen : ¬ out.length > dd) : cs = [] := by
  rcases eq_nil_or_snoc cs with h0 | ⟨cs', e, h0⟩
  · exact h0
  · exfalso
    apply hlen
    have he : e ≠ [] := ((validName_iff e).1 (h.valid e (by rw [h0]; simp))).1
    rw [h.out_eq, h.dd_eq, h0, ← List.append_assoc, render_snoc]
    exact lt_of_le_of_lt (render_length_le_append r _ cs') (push_length_gt r _ e he)

theorem elem_validName (c : Char) (t : List Char) (h : IsPathSeparator c = false)
    (h1 : isDot c t = false) (h2 : isDotDot c t = false) :
    validName (c :: t.takeWhile notSep) = true := by
  rw [validName_iff]
  refine ⟨by simp, ?_, ?_, ?_⟩
  · intro x hx
    rcases List.mem_cons.1 hx with rfl | hx
    · simp [notSep, h]
    · exact (List.mem_takeWhile_imp hx)
  · intro he
    rcases t with _ | ⟨a, t⟩
    · simp [isDot] at h1 he
      exact h1 he
    · simp only [List.cons.injEq, List.takeWhile_cons] at he
      obtain ⟨hc, ht⟩ := he
      by_cases ha : notSep a = true
      · rw [if_pos ha] at ht
        exact absurd ht (by simp)
      · simp [isDot, hc] at h1
        simp [notSep, h1] at ha
  · intro he
    rcases t with _ | ⟨a, _ | ⟨b, t⟩⟩
    · simp at he
    · simp only [List.cons.injEq, List.takeWhile_cons, List.takeWhile_nil] at he
      obtain ⟨hc, ht⟩ := he
      by_cases ha : notSep a = true
      · rw [if_pos ha] at ht
        simp at ht
        simp [isDotDot, hc, ht] at h2
      · rw [if_neg ha] at ht
        exact absurd ht (by simp)
    · simp only [List.cons.injEq, List.takeWhile_cons] at he
      obtain ⟨hc, ht⟩ := he
      by_cases ha : notSep a = true
      · rw [if_pos ha] at ht
        by_cases hb : notSep b = true
        · rw [if_pos hb] at ht
          simp at ht
        · rw [if_neg hb] at ht
          simp at ht
          simp [isDotDot, hc, ht] at h2
          simp [notSep, h2] at hb
      · rw [if_neg ha] at ht
        exact absurd ht (by simp)

/-- The shape of the buffer is kept by the loop, whatever is read. -/
theorem cleanLoop_rep (r : Bool) (rest out : List Char) (dd : Nat) :
    ∀ (k : Nat) (cs : List (List Char)), Rep r k cs out dd →
      ∃ k' cs', Rep r k' cs' (cleanLoop r rest out dd).1 (cleanLoop r rest out dd).2 := by
  induction rest, out, dd using cleanLoop.induct r with
  | case1 out dd =>
    intro k cs h
    rw [cleanLoop_nil]
    exact ⟨k, cs, h⟩
  | case2 out dd c t h ih =>
    intro k cs hrep
    rw [cleanLoop_cons_sep _ _ _ _ _ h]
    exact ih k cs hrep
  | case3 out dd c t h h1 ih =>
    intro k cs hrep
    rw [cleanLoop_cons_dot _ _ _ _ _ (by simpa using h) h1]
    exact ih k cs hrep
  | case4 out dd c t h h1 h2 hlen ih =>
    intro k cs hrep
    have h0 : IsPathSeparator c = false := by simpa using h
    have h1a : isDot c t = false := by simpa [isDot] using h1
    rw [cleanLoop_cons_dotdot _ _ _ _ _ h0 h1a h2, if_pos hlen]
    rcases eq_nil_or_snoc cs with hcs | ⟨cs', e, hcs⟩
    · exfalso
      rw [hrep.out_eq, hrep.dd_eq, hcs, List.append_nil] at hlen
      exact lt_irrefl _ hlen
    · have hout : out = push r (render r (List.replicate k ['.', '.'] ++ cs')) e := by
        rw [hrep.out_eq, hcs, ← List.append_assoc, render_snoc]
      have hval : ∀ x ∈ cs', validName x = true := fun x hx =>
        hrep.valid x (by rw [hcs]; exact List.mem_append_left _ hx)
      have he : isElem e = true := validName_isElem (hrep.valid e (by rw [hcs]; simp))
      have hdd : dd ≤ (render r (List.replicate k ['.', '.'] ++ cs')).length := by
        rw [hrep.dd_eq]
        exact render_length_le_append r _ _
      have hbt := backtrack_push r (render r (List.replicate k ['.', '.'] ++ cs')) e dd he hdd
        (by
          intro hs
          have h1 := initOut_length_le_render r (List.replicate k ['.', '.'])
          rw [← hrep.dd_eq] at h1
          cases r
          · have h2 : (render false (List.replicate k ['.', '.'] ++ cs')).length = 0 := by
              simpa using hs
            omega
          · have h2 : (render true (List.replicate k ['.', '.'] ++ cs')).length = 1 := by
              simpa using hs
            simp only [initOut, if_true, List.length_singleton] at h1
            omega)
      rw [← hout] at hbt
      exact ih k cs' ⟨hbt, hrep.dd_eq, hrep.rooted_k, hval⟩
  | case5 out dd c t h h1 h2 hlen hr out1 out2 ih =>
    intro k cs hrep
    have h0 : IsPathSeparator c = false := by simpa using h
    have h1a : isDot c t = false := by simpa [isDot] using h1
    have hr0 : r = false := by simpa using hr
    have ho : out2 = push r out ['.', '.'] := by
      subst hr0
      rw [push_false]
      simp only [out2, out1, dite_eq_ite]
    rw [cleanLoop_cons_dotdot _ _ _ _ _ h0 h1a h2, if_neg hlen, if_pos hr0, ← ho]
    have hcs := hrep.cs_eq_nil hlen
    apply ih (k + 1) []
    have hout2 : out2 = render r (List.replicate (k + 1) ['.', '.']) := by
      rw [ho, hrep.out_eq, hcs, List.append_nil, List.replicate_succ', render_snoc]
    exact ⟨by rw [List.append_nil]; exact hout2, by rw [hout2],
      fun hr1 => by rw [hr0] at hr1; exact absurd hr1 (by decide),
      fun _ hx => absurd hx (List.not_mem_nil _)⟩
  | case6 out dd c t h h1 h2 hlen hr ih =>
    intro k cs hrep
    have h0 : IsPathSeparator c = false := by simpa using h
    have h1a : isDot c t = false := by simpa [isDot] using h1
    have hr0 : ¬ r = false := by simpa using hr
    rw [cleanLoop_cons_dotdot _ _ _ _ _ h0 h1a h2, if_neg hlen, if_neg hr0]
    exact ih k cs hrep
  | case7 out dd c t h h1 h2 out1 ih =>
    intro k cs hrep
    have h0 : IsPathSeparator c = false := by simpa using h
    have h1a : isDot c t = false := by simpa [isDot] using h1
    have h2a : isDotDot c t = false := by simpa [isDotDot] using h2
    have ho : out1 ++ c :: t.takeWhile notSep = push r out (c :: t.takeWhile notSep) := rfl
    rw [cleanLoop_cons_elem _ _ _ _ _ h0 h1a h2a, ← ho]
    apply ih k (cs ++ [c :: t.takeWhile notSep])
    refine ⟨?_, hrep.dd_eq, hrep.rooted_k, ?_⟩
    · rw [ho, hrep.out_eq, ← List.append_assoc, render_snoc]
    · intro x hx
      rcases List.mem_append.1 hx with hx | hx
      · exact hrep.valid x hx
      · rw [List.mem_singleton.1 hx]
        exact elem_validName c t h0 h1a h2a

theorem push_true_cons (t e : List Char) : ∃ t', push true ('/' :: t) e = '/' :: t' := by
  unfold push
  split
  · exact ⟨t ++ ['/'] ++ e, by simp⟩
  · exact ⟨t ++ e, by simp⟩

theorem foldl_push_true_cons (B : List (List Char)) (t : List Char) :
    ∃ t', B.foldl (push true) ('/' :: t) = '/' :: t' := by
  induction B generalizing t with
  | nil => exact ⟨t, rfl⟩
  | cons e B ih =>
    obtain ⟨t1, h1⟩ := push_true_cons t e
    rw [List.foldl_cons, h1]
    exact ih t1

theorem render_true_cons (A : List (List Char)) : ∃ t, render true A = '/' :: t :=
  foldl_push_true_cons A []

/-- One more element can be read again: if re-reading the buffer `s` reproduces it, and reading
`e` in that state appends `e`, then re-reading the longer buffer reproduces it too. -/
theorem reprocess_step (r : Bool) (s e : List Char) (dd dd' : Nat)
    (hs : cleanLoop r (body r s) (initOut r) (initOut r).length = (s, dd))
    (hroot : r = true → ∃ t, s = '/' :: t)
    (hstep : cleanLoop r e s dd = (push r s e, dd')) :
    cleanLoop r (body r (push r s e)) (initOut r) (initOut r).length = (push r s e, dd') := by
  by_cases hsl : ((r && s.length != 1) || (!r && s.length != 0)) = true
  · have hp : push r s e = s ++ '/' :: e := by
      unfold push
      rw [if_pos hsl]
      simp
    have hb : body r (s ++ '/' :: e) = body r s ++ '/' :: e := by
      cases r
      · rfl
      · obtain ⟨t, ht⟩ := hroot rfl
        rw [ht]
        rfl
    rw [hp, hb, cleanLoop_append_sep, hs, ← hp]
    exact hstep
  · have hp : push r s e = s ++ e := by
      unfold push
      rw [if_neg hsl]
    have hinit : s = initOut r := by
      cases r
      · have : s.length = 0 := by simpa using hsl
        rw [List.length_eq_zero.1 this]
        rfl
      · obtain ⟨t, ht⟩ := hroot rfl
        have : s.length = 1 := by simpa using hsl
        rw [ht] at this ⊢
        have ht0 : t = [] := List.length_eq_zero.1 (by simpa using this)
        rw [ht0]
        rfl
    have hb0 : body r s = [] := by
      rw [hinit]
      cases r <;> rfl
    have hb : body r (s ++ e) = e := by
      rw [hinit]
      cases r <;> rfl
    rw [hb0, cleanLoop_nil] at hs
    have hdd : (initOut r).length = dd := (Prod.mk.inj hs).2
    rw [hp, hb, hdd, ← hinit, ← hp]
    exact hstep

theorem reprocess_dotdots (k : Nat) :
    cleanLoop false (render false (List.replicate k ['.', '.'])) [] 0 =
      (render false (List.replicate k ['.', '.']),
        (render false (List.replicate k ['.', '.'])).length) := by
  induction k with
  | zero => exact cleanLoop_nil _ _ _
  | succ k ih =>
    rw [List.replicate_succ', render_snoc]
    exact reprocess_step false _ _ _ _ ih (fun h => absurd h (by decide))
      (cleanLoop_dotdot_append _ _ (lt_irrefl _))

/-- Re-reading a buffer of the shape `Rep` reproduces the buffer and its `dotdot`. -/
theorem reprocess (r : Bool) (k : Nat) (cs : List (List Char)) (hk : r = true → k = 0)
    (hv : ∀ c ∈ cs, validName c = true) :
    cleanLoop r (body r (render r (List.replicate k ['.', '.'] ++ cs))) (initOut r)
        (initOut r).length =
      (render r (List.replicate k ['.', '.'] ++ cs),
        (render r (List.replicate k ['.', '.'])).length) := by
  induction cs using List.reverseRecOn with
  | nil =>
    rw [List.append_nil]
    cases r
    · exact reprocess_dotdots k
    · rw [hk rfl]
      exact cleanLoop_nil _ _ _
  | append_singleton cs e ih =>
    rw [← List.append_assoc, render_snoc]
    refine reprocess_step r _ _ _ _ (ih (fun c hc => hv c (List.mem_append_left _ hc))) ?_ ?_
    · intro hr
      rw [hr]
      exact render_true_cons _
    · exact cleanLoop_validName r e _ _ (hv e (by simp))

theorem push_eq_pushPre (r : Bool) (s e : List Char) : push r s e = pushPre r s ++ e := rfl

theorem pushPre_nil_or_sep (r : Bool) (s : List Char) (hs : r = true → ∃ t, s = '/' :: t) :
    pushPre r s = [] ∨ ∃ q, pushPre r s = q ++ ['/'] := by
  unfold pushPre
  split
  · exact Or.inr ⟨s, rfl⟩
  · next h =>
    cases r
    · have : s.length = 0 := by simpa using h
      exact Or.inl (List.length_eq_zero.1 this)
    · obtain ⟨t, ht⟩ := hs rfl
      have : s.length = 1 := by simpa using h
      rw [ht] at this ⊢
      have ht0 : t = [] := List.length_eq_zero.1 (by simpa using this)
      rw [ht0]
      exact Or.inr ⟨[], rfl⟩

theorem pushPre_inj (r : Bool) (s1 s2 : List Char) (h1 : r = true → ∃ t, s1 = '/' :: t)
    (h2 : r = true → ∃ t, s2 = '/' :: t) (h : pushPre r s1 = pushPre r s2) : s1 = s2 := by
  have hlen := congrArg List.length h
  unfold pushPre at h hlen
  cases r
  · simp only [Bool.false_and, Bool.not_false, Bool.true_and, Bool.false_or] at h hlen
    by_cases a1 : s1.length = 0 <;> by_cases a2 : s2.length = 0
    · rw [List.length_eq_zero.1 a1, List.length_eq_zero.1 a2]
    · simp [a1, a2] at hlen
    · simp [a1, a2] at hlen
    · rw [if_pos (by simpa using a1), if_pos (by simpa using a2)] at h
      exact List.append_cancel_right h
  · obtain ⟨t1, ht1⟩ := h1 rfl
    obtain ⟨t2, ht2⟩ := h2 rfl
    simp only [Bool.true_and, Bool.not_true, Bool.false_and, Bool.or_false] at h hlen
    by_cases a1 : s1.length = 1 <;> by_cases a2 : s2.length = 1
    · rw [if_neg (by simpa using a1), if_neg (by simpa using a2)] at h
      exact h
    · rw [if_neg (by simpa using a1), if_pos (by simpa using a2)] at hlen
      rw [ht2] at a2 hlen
      simp at hlen a2
      omega
    · rw [if_pos (by simpa using a1), if_neg (by simpa using a2)] at hlen
      rw [ht1] at a1 hlen
      simp at hlen a1
      omega
    · rw [if_pos (by simpa using a1), if_pos (by simpa using a2)] at h
      exact List.append_cancel_right h

theorem append_elem_inj_aux (P1 P2 e1 e2 a : List Char) (hP2 : P2 = P1 ++ a)
    (he1 : e1 = a ++ e2) (h1 : ∀ x ∈ e1, notSep x = true)
    (hq : P2 = [] ∨ ∃ q, P2 = q ++ ['/']) : a = [] := by
  rcases eq_nil_or_snoc a with ha | ⟨a', x, ha⟩
  · exact ha
  · exfalso
    rcases hq with hq | ⟨q, hq⟩
    · rw [hq, ha] at hP2
      simp at hP2
    · rw [hq, ha, ← List.append_assoc] at hP2
      have hx : '/' = x := by
        have := List.append_inj_right' hP2 rfl
        simpa using this
      have := h1 x (by rw [he1, ha]; simp)
      rw [← hx] at this
      exact absurd this (by decide)

theorem append_elem_inj (P1 P2 e1 e2 : List Char) (h : P1 ++ e1 = P2 ++ e2)
    (h1 : ∀ x ∈ e1, notSep x = true) (h2 : ∀ x ∈ e2, notSep x = true)
    (hq1 : P1 = [] ∨ ∃ q, P1 = q ++ ['/']) (hq2 : P2 = [] ∨ ∃ q, P2 = q ++ ['/']) :
    P1 = P2 ∧ e1 = e2 := by
  rcases List.append_eq_append_iff.1 h with ⟨a, hP, he⟩ | ⟨a, hP, he⟩
  · have ha := append_elem_inj_aux P1 P2 e1 e2 a hP he h1 hq2
    rw [ha] at hP he
    exact ⟨by simpa using hP.symm, by simpa using he⟩
  · have ha := append_elem_inj_aux P2 P1 e2 e1 a hP he h2 hq1
    rw [ha] at hP he
    exact ⟨by simpa using hP, by simpa using he.symm⟩

theorem push_inj (r : Bool) (s1 s2 e1 e2 : List Char) (h1 : r = true → ∃ t, s1 = '/' :: t)
    (h2 : r = true → ∃ t, s2 = '/' :: t) (he1 : isElem e1 = true) (he2 : isElem e2 = true)
    (h : push r s1 e1 = push r s2 e2) : s1 = s2 ∧ e1 = e2 := by
  rw [push_eq_pushPre, push_eq_pushPre] at h
  have := append_elem_inj _ _ _ _ h ((isElem_iff e1).1 he1).2 ((isElem_iff e2).1 he2).2
    (pushPre_nil_or_sep r s1 h1) (pushPre_nil_or_sep r s2 h2)
  exact ⟨pushPre_inj r s1 s2 h1 h2 this.1, this.2⟩

theorem render_root (r : Bool) (A : List (List Char)) :
    r = true → ∃ t, render r A = '/' :: t := by
  intro hr
  rw [hr]
  exact render_true_cons A

theorem render_snoc_length_gt (r : Bool) (A : List (List Char)) (e : List Char)
    (he : isElem e = true) : (initOut r).length < (render r (A ++ [e])).length := by
  rw [render_snoc]
  exact lt_of_le_of_lt (initOut_length_le_render r A)
    (push_length_gt r _ e ((isElem_iff e).1 he).1)

/-- Different lists of path elements give different buffers. -/
theorem render_inj (r : Bool) (A B : List (List Char)) (hA : ∀ e ∈ A, isElem e = true)
    (hB : ∀ e ∈ B, isElem e = true) (h : render r A = render r B) : A = B := by
  induction A using List.reverseRecOn generalizing B with
  | nil =>
    rcases eq_nil_or_snoc B with hB0 | ⟨B', e, hB0⟩
    · exact hB0.symm
    · exfalso
      have := render_snoc_length_gt r B' e (hB e (by rw [hB0]; simp))
      rw [← hB0, ← h] at this
      exact lt_irrefl _ this
  | append_singleton A a ih =>
    rcases eq_nil_or_snoc B with hB0 | ⟨B', e, hB0⟩
    · exfalso
      have := render_snoc_length_gt r A a (hA a (by simp))
      rw [h, hB0] at this
      exact lt_irrefl _ this
    · rw [hB0, render_snoc, render_snoc] at h
      have := push_inj r _ _ _ _ (render_root r A) (render_root r B') (hA a (by simp))
        (hB e (by rw [hB0]; simp)) h
      rw [hB0, ih B' (fun x hx => hA x (List.mem_append_left _ hx))
        (fun x hx => hB x (by rw [hB0]; exact List.mem_append_left _ hx)) this.1, this.2]

theorem Clean_eq (p : List Char) (hp : p ≠ []) :
    Clean p = if (pathKey p).length == 0 then ['.'] else pathKey p := by
  unfold Clean pathKey stateOf rootedOf
  rw [if_neg hp]
  generalize IsPathSeparator (p.getD 0 '.') = r
  cases r <;> rfl

theorem stateOf_rep (p : List Char) :
    ∃ k cs, Rep (rootedOf p) k cs (stateOf p).1 (stateOf p).2 :=
  cleanLoop_rep _ _ _ _ 0 [] (Rep.init _)

theorem isElem_of_rep_mem {k : Nat} {cs : List (List Char)}
    (hv : ∀ c ∈ cs, validName c = true) :
    ∀ e ∈ List.replicate k ['.', '.'] ++ cs, isElem e = true := by
  intro e he
  rcases List.mem_append.1 he with he | he
  · rw [(List.mem_replicate.1 he).2]
    exact isElem_dotdot
  · exact validName_isElem (hv e he)

theorem render_false_head (A : List (List Char)) (hA : ∀ e ∈ A, isElem e = true) :
    ∀ out : List Char, rootedOf out = false → rootedOf (A.foldl (push false) out) = false := by
  induction A with
  | nil => exact fun out h => h
  | cons e A ih =>
    intro out h
    rw [List.foldl_cons]
    apply ih (fun x hx => hA x (List.mem_cons_of_mem _ hx))
    have he := (isElem_iff e).1 (hA e (List.mem_cons_self _ _))
    cases out with
    | nil =>
      cases e with
      | nil => exact absurd rfl he.1
      | cons c t =>
        have := he.2 c (List.mem_cons_self _ _)
        simpa [push, rootedOf, notSep] using this
    | cons c t =>
      simpa [push, rootedOf] using h

theorem rootedOf_render (r : Bool) (A : List (List Char)) (hA : ∀ e ∈ A, isElem e = true) :
    rootedOf (render r A) = r := by
  cases r
  · exact render_false_head A hA [] rfl
  · obtain ⟨t, ht⟩ := render_true_cons A
    rw [ht]
    rfl

/-- A buffer of the shape `Rep` is the final buffer of `Clean`'s loop on itself. -/
theorem pathKey_render (r : Bool) (k : Nat) (cs : List (List Char)) (hk : r = true → k = 0)
    (hv : ∀ c ∈ cs, validName c = true) :
    pathKey (render r (List.replicate k ['.', '.'] ++ cs)) =
      render r (List.replicate k ['.', '.'] ++ cs) := by
  unfold pathKey stateOf
  rw [rootedOf_render r _ (isElem_of_rep_mem hv), reprocess r k cs hk hv]

theorem rootedOf_append (p t : List Char) (hp : p ≠ []) : rootedOf (p ++ t) = rootedOf p := by
  cases p with
  | nil => exact absurd rfl hp
  | cons c p => rfl

theorem body_append (r : Bool) (p t : List Char) (hp : p ≠ []) :
    body r (p ++ t) = body r p ++ t := by
  cases p with
  | nil => exact absurd rfl hp
  | cons c p => cases r <;> rfl

theorem push_ne_nil (r : Bool) (s n : List Char) (hn : n ≠ []) : push r s n ≠ [] := by
  intro h
  have := push_length_gt r s n hn
  rw [h] at this
  exact Nat.not_lt_zero _ this

/-- Joining a valid entry name to any path appends the name, as one element, to the cleaned
form of the path. -/
theorem Join_validName (p n : List Char) (hn : validName n = true) :
    Join p n = push (rootedOf p) (pathKey p) n := by
  have hne : n ≠ [] := ((validName_iff n).1 hn).1
  have hkey : ∀ q : List Char, pathKey q = push (rootedOf p) (pathKey p) n →
      q ≠ [] → Clean q = push (rootedOf p) (pathKey p) n := by
    intro q hq hq0
    rw [Clean_eq q hq0, hq, if_neg]
    have := push_ne_nil (rootedOf p) (pathKey p) n hne
    simpa using this
  unfold Join
  by_cases hp : p = []
  · rw [if_neg (by simpa using hp), if_pos hne]
    apply hkey n _ hne
    have hr : rootedOf n = false := by
      cases n with
      | nil => exact absurd rfl hne
      | cons c t =>
        have := ((validName_iff _).1 hn).2.1 c (List.mem_cons_self _ _)
        simpa [rootedOf, notSep] using this
    rw [hp]
    unfold pathKey stateOf
    rw [hr]
    show (cleanLoop false n [] 0).1 = push false (cleanLoop false [] [] 0).1 n
    rw [cleanLoop_validName false n [] 0 hn, cleanLoop_nil]
  · rw [if_pos hp]
    apply hkey _ _ (by simp [hp])
    unfold pathKey stateOf
    rw [rootedOf_append p _ hp, body_append _ p _ hp, cleanLoop_append_sep,
      cleanLoop_validName _ n _ _ hn]

/-- The cleaned form of a joined path is the joined path, and it has one more element than the
cleaned form of the directory. -/
theorem pathKey_Join (p n : List Char) (hn : validName n = true) (A : List (List Char))
    (hA : ∀ e ∈ A, isElem e = true) (hp : pathKey p = render (rootedOf p) A) :
    rootedOf (Join p n) = rootedOf p ∧ pathKey (Join p n) = render (rootedOf p) (A ++ [n]) ∧
      Join p n = render (rootedOf p) (A ++ [n]) := by
  obtain ⟨k, cs, hrep⟩ := stateOf_rep p
  have hA2 : A = List.replicate k ['.', '.'] ++ cs :=
    render_inj _ _ _ hA (isElem_of_rep_mem hrep.valid) (by rw [← hp]; exact hrep.out_eq)
  have hj : Join p n = render (rootedOf p) (List.replicate k ['.', '.'] ++ (cs ++ [n])) := by
    rw [Join_validName p n hn, ← List.append_assoc, render_snoc]
    congr 1
    exact hrep.out_eq
  have hv : ∀ c ∈ cs ++ [n], validName c = true := by
    intro c hc
    rcases List.mem_append.1 hc with hc | hc
    · exact hrep.valid c hc
    · rw [List.mem_singleton.1 hc]
      exact hn
  refine ⟨?_, ?_, ?_⟩
  · rw [hj]
    exact rootedOf_render _ _ (isElem_of_rep_mem hv)
  · rw [hj, hA2, List.append_assoc]
    exact pathKey_render _ k _ hrep.rooted_k hv
  · rw [hj, hA2, List.append_assoc]

theorem findDirsFn_file (root path name : List Char) (s : List (List Char)) :
    findDirsFn root s path (some ⟨name, false⟩) none =
      if path = root then (s, some (GoError.wrap root GoError.ErrNotDirectory)) else (s, none) := by
  by_cases h : path = root <;> simp [findDirsFn, h]

theorem findDirsFn_dir (root path name : List Char) (s : List (List Char)) :
    findDirsFn root s path (some ⟨name, true⟩) none = (s ++ [path], none) := by
  simp [findDirsFn]

theorem findDirsFn_err (root path : List Char) (d : Option DirEntry) (e : GoError)
    (s : List (List Char)) : findDirsFn root s path d (some e) = (s, some e) := rfl

theorem walkDir_file (root path name : List Char) (s : List (List Char)) :
    walkDir (findDirsFn root) path name Node.file s =
      if path = root then (s, some (GoError.wrap root GoError.ErrNotDirectory)) else (s, none) := by
  rw [walkDir, findDirsFn_file]

theorem walkDir_dir_err (root path name : List Char) (es : Entries) (e : Nat)
    (s : List (List Char)) :
    walkDir (findDirsFn root) path name (Node.dir es (some e)) s =
      (s ++ [path], some (GoError.errno e)) := by
  rw [walkDir, findDirsFn_dir]
  simp [findDirsFn_err]

theorem walkDir_dir_ok (root path name : List Char) (es : Entries) (s : List (List Char)) :
    walkDir (findDirsFn root) path name (Node.dir es none) s =
      walkEntries (findDirsFn root) path es (s ++ [path]) := by
  rw [walkDir, findDirsFn_dir]

theorem walkEntries_nil (root path : List Char) (s : List (List Char)) :
    walkEntries (findDirsFn root) path Entries.nil s = (s, none) := by
  rw [walkEntries]

theorem walkEntries_cons_ok (root path name : List Char) (d : Node) (rest : Entries)
    (s s1 : List (List Char))
    (h : walkDir (findDirsFn root) (Join path name) name d s = (s1, none)) :
    walkEntries (findDirsFn root) path (Entries.cons name d rest) s =
      walkEntries (findDirsFn root) path rest s1 := by
  rw [walkEntries, h]

theorem walkEntries_cons_err (root path name : List Char) (d : Node) (rest : Entries)
    (s s1 : List (List Char)) (err : GoError)
    (h : walkDir (findDirsFn root) (Join path name) name d s = (s1, some err)) :
    walkEntries (findDirsFn root) path (Entries.cons name d rest) s =
      if err = GoError.SkipDir then (s1, none) else (s1, some err) := by
  rw [walkEntries, h]

mutual
/-- The walk only appends to the collected list. -/
theorem walkDir_extends (root : List Char) :
    ∀ (d : Node) (path name : List Char) (s : List (List Char)),
      ∃ l, (walkDir (findDirsFn root) path name d s).1 = s ++ l
  | .file, path, name, s => by
    rw [walkDir_file]
    split <;> exact ⟨[], by simp⟩
  | .dir es (some e), path, name, s => by
    rw [walkDir_dir_err]
    exact ⟨[path], rfl⟩
  | .dir es none, path, name, s => by
    rw [walkDir_dir_ok]
    obtain ⟨l, hl⟩ := walkEntries_extends root es path (s ++ [path])
    exact ⟨[path] ++ l, by rw [hl, List.append_assoc]⟩
/-- The loop over a listing only appends to the collected list. -/
theorem walkEntries_extends (root : List Char) :
    ∀ (es : Entries) (path : List Char) (s : List (List Char)),
      ∃ l, (walkEntries (findDirsFn root) path es s).1 = s ++ l
  | .nil, path, s => by
    rw [walkEntries_nil]
    exact ⟨[], by simp⟩
  | .cons name d rest, path, s => by
    obtain ⟨l, hl⟩ := walkDir_extends root d (Join path name) name s
    rcases hw : walkDir (findDirsFn root) (Join path name) name d s with ⟨s1, _ | err⟩
    · rw [hw] at hl
      have hl1 : s1 = s ++ l := hl
      rw [walkEntries_cons_ok _ _ _ _ _ _ _ hw]
      obtain ⟨l2, hl2⟩ := walkEntries_extends root rest path s1
      exact ⟨l ++ l2, by rw [hl2, hl1, List.append_assoc]⟩
    · rw [hw] at hl
      have hl1 : s1 = s ++ l := hl
      rw [walkEntries_cons_err _ _ _ _ _ _ _ _ hw]
      split <;> exact ⟨l, hl1⟩
end

/-! ## Theorems: the paths of a file tree -/

theorem Entries.wellFormed_cons (name : List Char) (d : Node) (rest : Entries)
    (h : (Entries.cons name d rest).wellFormed = true) :
    validName name = true ∧ rest.hasName name = false ∧ d.wellFormed = true ∧
      rest.wellFormed = true := by
  rw [Entries.wellFormed] at h
  simp only [Bool.and_eq_true, Bool.not_eq_true'] at h
  exact ⟨h.1.1.1, h.1.1.2, h.1.2, h.2⟩

mutual
/-- Every object below a well-formed node has, as its cleaned path, the cleaned path of the
node followed by further path elements. -/
theorem Node.listing_key (r : Bool) :
    ∀ (d : Node) (path : List Char) (A : List (List Char)), d.wellFormed = true →
      (∀ e ∈ A, isElem e = true) → rootedOf path = r → pathKey path = render r A →
      ∀ q b, (q, b) ∈ d.listing path →
        ∃ ns, (∀ n ∈ ns, isElem n = true) ∧ pathKey q = render r (A ++ ns)
  | .file, path, A, _, _, _, hk => by
    intro q b hq
    rw [Node.listing, List.mem_singleton] at hq
    rw [(Prod.mk.inj hq).1]
    exact ⟨[], fun _ h => absurd h (List.not_mem_nil _), by rw [List.append_nil]; exact hk⟩
  | .dir es re, path, A, hwf, hA, hr, hk => by
    intro q b hq
    rw [Node.listing, List.mem_cons] at hq
    rcases hq with hq | hq
    · rw [(Prod.mk.inj hq).1]
      exact ⟨[], fun _ h => absurd h (List.not_mem_nil _), by rw [List.append_nil]; exact hk⟩
    · rw [Node.wellFormed] at hwf
      obtain ⟨n, ns, _, hn, hns, hq2⟩ := Entries.below_key r es path A hwf hA hr hk q b hq
      refine ⟨n :: ns, ?_, hq2⟩
      intro x hx
      rcases List.mem_cons.1 hx with rfl | hx
      · exact hn
      · exact hns x hx
/-- Every object below a well-formed listing has, as its cleaned path, the cleaned path of the
directory followed by the name of an entry of the listing and further path elements. -/
theorem Entries.below_key (r : Bool) :
    ∀ (es : Entries) (path : List Char) (A : List (List Char)), es.wellFormed = true →
      (∀ e ∈ A, isElem e = true) → rootedOf path = r → pathKey path = render r A →
      ∀ q b, (q, b) ∈ es.listing path →
        ∃ n ns, es.hasName n = true ∧ isElem n = true ∧ (∀ x ∈ ns, isElem x = true) ∧
          pathKey q = render r (A ++ n :: ns)
  | .nil, path, A, _, _, _, _ => by
    intro q b hq
    rw [Entries.listing] at hq
    exact absurd hq (List.not_mem_nil _)
  | .cons name d rest, path, A, hwf, hA, hr, hk => by
    intro q b hq
    obtain ⟨hname, _, hd, hrest⟩ := Entries.wellFormed_cons name d rest hwf
    rw [Entries.listing, List.mem_append] at hq
    rcases hq with hq | hq
    · rw [← hr] at hk
      obtain ⟨hr', hk', _⟩ := pathKey_Join path name hname A hA hk
      rw [hr] at hr' hk'
      have hA' : ∀ e ∈ A ++ [name], isElem e = true := by
        intro e he
        rcases List.mem_append.1 he with he | he
        · exact hA e he
        · rw [List.mem_singleton.1 he]
          exact validName_isElem hname
      obtain ⟨ns, hns, hq2⟩ :=
        Node.listing_key r d (Join path name) (A ++ [name]) hd hA' hr' hk' q b hq
      refine ⟨name, ns, ?_, validName_isElem hname, hns, ?_⟩
      · rw [Entries.hasName]
        simp
      · rw [hq2, List.append_assoc]
        rfl
    · obtain ⟨n, ns, hn0, hn, hns, hq2⟩ :=
        Entries.below_key r rest path A hrest hA hr hk q b hq
      refine ⟨n, ns, ?_, hn, hns, hq2⟩
      rw [Entries.hasName, hn0]
      simp
end

theorem isElem_append {A B : List (List Char)} (hA : ∀ e ∈ A, isElem e = true)
    (hB : ∀ e ∈ B, isElem e = true) : ∀ e ∈ A ++ B, isElem e = true := by
  intro e he
  rcases List.mem_append.1 he with he | he
  · exact hA e he
  · exact hB e he

theorem isElem_cons {n : List Char} {B : List (List Char)} (hn : isElem n = true)
    (hB : ∀ e ∈ B, isElem e = true) : ∀ e ∈ n :: B, isElem e = true := by
  intro e he
  rcases List.mem_cons.1 he with he | he
  · rw [he]
    exact hn
  · exact hB e he

mutual
/-- The objects below a well-formed node have pairwise different paths. -/
theorem Node.listing_nodup (r : Bool) :
    ∀ (d : Node) (path : List Char) (A : List (List Char)), d.wellFormed = true →
      (∀ e ∈ A, isElem e = true) → rootedOf path = r → pathKey path = render r A →
      ((d.listing path).map Prod.fst).Nodup
  | .file, path, A, _, _, _, _ => by
    rw [Node.listing]
    exact List.nodup_singleton _
  | .dir es re, path, A, hwf, hA, hr, hk => by
    rw [Node.listing, List.map_cons, List.nodup_cons]
    rw [Node.wellFormed] at hwf
    refine ⟨?_, Entries.below_nodup r es path A hwf hA hr hk⟩
    intro hmem
    obtain ⟨⟨q, b⟩, hqb, hq⟩ := List.mem_map.1 hmem
    simp only at hq
    rw [hq] at hqb
    obtain ⟨n, ns, _, hn, hns, hq2⟩ := Entries.below_key r es path A hwf hA hr hk path b hqb
    rw [hk] at hq2
    have := render_inj r _ _ hA (isElem_append hA (isElem_cons hn hns)) hq2
    have h2 : n :: ns = [] := List.self_eq_append_right.1 this
    exact absurd h2 (List.cons_ne_nil _ _)
/-- The objects below a well-formed listing have pairwise different paths. -/
theorem Entries.below_nodup (r : Bool) :
    ∀ (es : Entries) (path : List Char) (A : List (List Char)), es.wellFormed = true →
      (∀ e ∈ A, isElem e = true) → rootedOf path = r → pathKey path = render r A →
      ((es.listing path).map Prod.fst).Nodup
  | .nil, path, A, _, _, _, _ => by
    rw [Entries.listing]
    exact List.nodup_nil
  | .cons name d rest, path, A, hwf, hA, hr, hk => by
    obtain ⟨hname, hnot, hd, hrest⟩ := Entries.wellFormed_cons name d rest hwf
    have hk0 := hk
    rw [← hr] at hk0
    obtain ⟨hr', hk', _⟩ := pathKey_Join path name hname A hA hk0
    rw [hr] at hr' hk'
    have hA' : ∀ e ∈ A ++ [name], isElem e = true :=
      isElem_append hA (isElem_cons (validName_isElem hname) (fun _ h => absurd h (List.not_mem_nil _)))
    rw [Entries.listing, List.map_append, List.nodup_append]
    refine ⟨Node.listing_nodup r d (Join path name) (A ++ [name]) hd hA' hr' hk',
      Entries.below_nodup r rest path A hrest hA hr hk, ?_⟩
    intro q hq1 hq2
    obtain ⟨⟨q1, b1⟩, hqb1, hq1'⟩ := List.mem_map.1 hq1
    obtain ⟨⟨q2, b2⟩, hqb2, hq2'⟩ := List.mem_map.1 hq2
    simp only at hq1' hq2'
    rw [hq1'] at hqb1
    rw [hq2'] at hqb2
    obtain ⟨ns1, hns1, e1⟩ :=
      Node.listing_key r d (Join path name) (A ++ [name]) hd hA' hr' hk' q b1 hqb1
    obtain ⟨n, ns2, hn0, hn, hns2, e2⟩ :=
      Entries.below_key r rest path A hrest hA hr hk q b2 hqb2
    rw [e1] at e2
    have := render_inj r _ _ (isElem_append hA' hns1) (isElem_append hA (isElem_cons hn hns2)) e2
    rw [List.append_assoc] at this
    have h2 := List.append_cancel_left this
    have h3 : name = n := by
      simp only [List.singleton_append, List.cons.injEq] at h2
      exact h2.1
    rw [h3, hn0] at hnot
    exact absurd hnot (by decide)
end

/-! ## Theorems: the walk of `findDirs` -/

theorem dirsOf_append (l1 l2 : List (List Char × Bool)) :
    dirsOf (l1 ++ l2) = dirsOf l1 ++ dirsOf l2 := by
  simp [dirsOf]

mutual
/-- A subtree without read errors is the same as a subtree whose first read error is none. -/
theorem Node.firstReadErr_eq_none_iff :
    ∀ d : Node, d.firstReadErr = none ↔ d.readable = true
  | .file => by simp [Node.firstReadErr, Node.readable]
  | .dir es (some e) => by simp [Node.firstReadErr, Node.readable]
  | .dir es none => by
    simp [Node.firstReadErr, Node.readable, Entries.readable_iff es]
/-- The same for a listing. -/
theorem Entries.readable_iff :
    ∀ es : Entries, es.firstReadErr = none ↔ es.readable = true
  | .nil => by simp [Entries.firstReadErr, Entries.readable]
  | .cons name d rest => by
    rw [Entries.firstReadErr, Entries.readable, Bool.and_eq_true,
      ← Node.firstReadErr_eq_none_iff d, ← Entries.readable_iff rest]
    cases d.firstReadErr <;> simp
end

mutual
/-- What the walk of `findDirs` does on a subtree none of whose non-directories has the root
path: it appends the directories of the subtree, unless a directory cannot be read, in which
case it stops with the first read error. -/
theorem walkDir_findDirsFn (root : List Char) :
    ∀ (d : Node) (path name : List Char) (s : List (List Char)),
      (∀ q, (q, false) ∈ d.listing path → q ≠ root) →
      (d.firstReadErr = none →
        walkDir (findDirsFn root) path name d s = (s ++ dirsOf (d.listing path), none)) ∧
      (∀ e, d.firstReadErr = some e →
        (walkDir (findDirsFn root) path name d s).2 = some (GoError.errno e))
  | .file, path, name, s, h => by
    have hp : path ≠ root := h path (by rw [Node.listing]; exact List.mem_singleton_self _)
    refine ⟨fun _ => ?_, fun e he => ?_⟩
    · rw [walkDir_file, if_neg hp, Node.listing]
      simp [dirsOf]
    · rw [Node.firstReadErr] at he
      exact absurd he (by simp)
  | .dir es (some e0), path, name, s, _ => by
    refine ⟨fun hn => ?_, fun e he => ?_⟩
    · rw [Node.firstReadErr] at hn
      exact absurd hn (by simp)
    · rw [Node.firstReadErr] at he
      rw [walkDir_dir_err]
      simp only at he ⊢
      rw [Option.some.inj he]
  | .dir es none, path, name, s, h => by
    have h' : ∀ q, (q, false) ∈ es.listing path → q ≠ root := by
      intro q hq
      exact h q (by rw [Node.listing]; exact List.mem_cons_of_mem _ hq)
    obtain ⟨h1, h2⟩ := walkEntries_findDirsFn root es path (s ++ [path]) h'
    refine ⟨fun hn => ?_, fun e he => ?_⟩
    · rw [Node.firstReadErr] at hn
      rw [walkDir_dir_ok, h1 hn, Node.listing]
      simp [dirsOf]
    · rw [Node.firstReadErr] at he
      rw [walkDir_dir_ok]
      exact h2 e he
/-- What the loop over a listing does in the walk of `findDirs`. -/
theorem walkEntries_findDirsFn (root : List Char) :
    ∀ (es : Entries) (path : List Char) (s : List (List Char)),
      (∀ q, (q, false) ∈ es.listing path → q ≠ root) →
      (es.firstReadErr = none →
        walkEntries (findDirsFn root) path es s = (s ++ dirsOf (es.listing path), none)) ∧
      (∀ e, es.firstReadErr = some e →
        (walkEntries (findDirsFn root) path es s).2 = some (GoError.errno e))
  | .nil, path, s, _ => by
    refine ⟨fun _ => ?_, fun e he => ?_⟩
    · rw [walkEntries_nil, Entries.listing]
      simp [dirsOf]
    · rw [Entries.firstReadErr] at he
      exact absurd he (by simp)
  | .cons name d rest, path, s, h => by
    have hd : ∀ q, (q, false) ∈ d.listing (Join path name) → q ≠ root := by
      intro q hq
      exact h q (by rw [Entries.listing]; exact List.mem_append_left _ hq)
    have hrest : ∀ q, (q, false) ∈ rest.listing path → q ≠ root := by
      intro q hq
      exact h q (by rw [Entries.listing]; exact List.mem_append_right _ hq)
    obtain ⟨d1, d2⟩ := walkDir_findDirsFn root d (Join path name) name s hd
    cases hfd : d.firstReadErr with
    | none =>
      have hw := d1 hfd
      obtain ⟨r1, r2⟩ := walkEntries_findDirsFn root rest path
        (s ++ dirsOf (d.listing (Join path name))) hrest
      refine ⟨fun hn => ?_, fun e he => ?_⟩
      · rw [Entries.firstReadErr, hfd] at hn
        rw [walkEntries_cons_ok _ _ _ _ _ _ _ hw, r1 hn, Entries.listing, dirsOf_append,
          List.append_assoc]
      · rw [Entries.firstReadErr, hfd] at he
        rw [walkEntries_cons_ok _ _ _ _ _ _ _ hw]
        exact r2 e he
    | some e0 =>
      have hw := d2 e0 hfd
      have hw2 : walkDir (findDirsFn root) (Join path name) name d s =
          ((walkDir (findDirsFn root) (Join path name) name d s).1,
            some (GoError.errno e0)) := by
        rw [← hw]
      refine ⟨fun hn => ?_, fun e he => ?_⟩
      · rw [Entries.firstReadErr, hfd] at hn
        exact absurd hn (by simp)
      · rw [Entries.firstReadErr, hfd] at he
        rw [walkEntries_cons_err _ _ _ _ _ _ _ _ hw2, if_neg (by simp)]
        simp only at he ⊢
        rw [Option.some.inj he]
end

/-- In a well-formed tree no object below the root has the root path. -/
theorem Node.listing_ne_root (d : Node) (path : List Char) (hwf : d.wellFormed = true) :
    ((d.listing path).map Prod.fst).Nodup := by
  obtain ⟨k, cs, hrep⟩ := stateOf_rep path
  exact Node.listing_nodup (rootedOf path) d path _ hwf (isElem_of_rep_mem hrep.valid) rfl
    hrep.out_eq

theorem Node.file_ne_root (d : Node) (path : List Char) (hdir : d.IsDir = true)
    (hwf : d.wellFormed = true) : ∀ q, (q, false) ∈ d.listing path → q ≠ path := by
  intro q hq hqp
  cases d with
  | file => exact absurd hdir (by decide)
  | dir es re =>
    have hnd := Node.listing_ne_root (Node.dir es re) path hwf
    rw [Node.listing, List.map_cons, List.nodup_cons] at hnd
    rw [Node.listing, List.mem_cons] at hq
    rcases hq with hq | hq
    · exact absurd (Prod.mk.inj hq).2 (by decide)
    · exact hnd.1 (List.mem_map.2 ⟨(q, false), hq, hqp⟩)

/-- On a well-formed tree whose root is a directory and in which every directory can be read,
`findDirs` returns the directories of the tree. -/
theorem findDirs_readable (d : Node) (path : List Char) (hdir : d.IsDir = true)
    (hwf : d.wellFormed = true) (hread : d.firstReadErr = none) :
    findDirs (.ok d) path = (dirsOf (d.listing path), none) := by
  have h := (walkDir_findDirsFn path d path (Base path) []
    (Node.file_ne_root d path hdir hwf)).1 hread
  unfold findDirs WalkDir
  simp only [h]
  simp

/-- On a well-formed tree whose root is a directory and in which some directory cannot be read,
`findDirs` returns the first read error of the walk and no directory. -/
theorem findDirs_readErr (d : Node) (path : List Char) (e : Nat) (hdir : d.IsDir = true)
    (hwf : d.wellFormed = true) (hread : d.firstReadErr = some e) :
    findDirs (.ok d) path = ([], some (GoError.errno e)) := by
  have h := (walkDir_findDirsFn path d path (Base path) []
    (Node.file_ne_root d path hdir hwf)).2 e hread
  rcases hw : walkDir (findDirsFn path) path (Base path) d [] with ⟨s1, err⟩
  rw [hw] at h
  simp only at h
  subst h
  simp [findDirs, WalkDir, hw]

mutual
/-- The directories listed for a subtree are as many as the subtree has. -/
theorem Node.dirsOf_listing_length :
    ∀ (d : Node) (path : List Char), (dirsOf (d.listing path)).length = d.countDirs
  | .file, path => by simp [Node.listing, Node.countDirs, dirsOf]
  | .dir es re, path => by
    have := Entries.dirsOf_length es path
    simp only [dirsOf, List.length_map] at this
    simp [Node.listing, Node.countDirs, dirsOf, this]
/-- The same for a listing. -/
theorem Entries.dirsOf_length :
    ∀ (es : Entries) (path : List Char), (dirsOf (es.listing path)).length = es.countDirs
  | .nil, path => by simp [Entries.listing, Entries.countDirs, dirsOf]
  | .cons name d rest, path => by
    rw [Entries.listing, dirsOf_append, List.length_append, Entries.countDirs,
      Node.dirsOf_listing_length d (Join path name), Entries.dirsOf_length rest path]
end

theorem mem_dirsOf {l : List (List Char × Bool)} {q : List Char} :
    q ∈ dirsOf l ↔ (q, true) ∈ l := by
  simp [dirsOf]

theorem dirsOf_nodup {l : List (List Char × Bool)} (h : (l.map Prod.fst).Nodup) :
    (dirsOf l).Nodup :=
  List.Nodup.sublist (List.Sublist.map _ (List.filter_sublist l)) h

theorem snd_eq_of_nodup_fst {l : List (List Char × Bool)} (h : (l.map Prod.fst).Nodup)
    {q : List Char} {a b : Bool} (ha : (q, a) ∈ l) (hb : (q, b) ∈ l) : a = b := by
  induction l with
  | nil => exact absurd ha (List.not_mem_nil _)
  | cons x l ih =>
    rw [List.map_cons, List.nodup_cons] at h
    rcases List.mem_cons.1 ha with ha | ha <;> rcases List.mem_cons.1 hb with hb | hb
    · rw [← ha] at hb
      exact (Prod.mk.inj hb).2.symm
    · exfalso
      apply h.1
      rw [← ha]
      exact List.mem_map.2 ⟨(q, b), hb, rfl⟩
    · exfalso
      apply h.1
      rw [← hb]
      exact List.mem_map.2 ⟨(q, a), ha, rfl⟩
    · exact ih h.2 ha hb

/-- C6: on a file tree whose root is a directory, whose entry names are valid and pairwise
different within each directory, and in which every directory can be read, `findDirs`
succeeds and returns exactly the directories of the tree: as many entries as the tree has
directories, without repetition, holding the path of every directory and the path of no
non-directory. -/
theorem findDirs_exactly_directories (d : Node) (path : List Char) (hdir : d.IsDir = true)
    (hwf : d.wellFormed = true) (hread : d.readable = true) :
    (findDirs (.ok d) path).2 = none ∧
      (findDirs (.ok d) path).1.length = d.countDirs ∧
      (findDirs (.ok d) path).1.Nodup ∧
      (∀ q, q ∈ (findDirs (.ok d) path).1 ↔ (q, true) ∈ d.listing path) ∧
      (∀ q, (q, false) ∈ d.listing path → q ∉ (findDirs (.ok d) path).1) := by
  rw [findDirs_readable d path hdir hwf ((Node.firstReadErr_eq_none_iff d).2 hread)]
  have hnd := Node.listing_ne_root d path hwf
  refine ⟨rfl, Node.dirsOf_listing_length d path, dirsOf_nodup hnd, fun q => mem_dirsOf, ?_⟩
  intro q hq hmem
  have := snd_eq_of_nodup_fst hnd hq (mem_dirsOf.1 hmem)
  exact absurd this (by decide)

/-- C6, at a concrete tree: the directory `r` holding the directory `a` (with the file `x`)
and the file `b`. -/
theorem findDirs_exactly_directories_witness :
    (findDirs (.ok (Node.dir (Entries.cons "a".toList
        (Node.dir (Entries.cons "x".toList Node.file Entries.nil) none)
        (Entries.cons "b".toList Node.file Entries.nil)) none)) "r".toList).2 = none ∧
      (findDirs (.ok (Node.dir (Entries.cons "a".toList
        (Node.dir (Entries.cons "x".toList Node.file Entries.nil) none)
        (Entries.cons "b".toList Node.file Entries.nil)) none)) "r".toList).1.length = 2 :=
  have h := findDirs_exactly_directories (Node.dir (Entries.cons "a".toList
    (Node.dir (Entries.cons "x".toList Node.file Entries.nil) none)
    (Entries.cons "b".toList Node.file Entries.nil)) none) "r".toList (by decide) (by decide)
    (by decide)
  ⟨h.1, h.2.1⟩

/-! ## Theorems: `findDirs` -/

theorem findDirs_error_nil (lstat : Except Nat Node) (path : List Char) (e : GoError)
    (h : (findDirs lstat path).2 = some e) : (findDirs lstat path).1 = [] := by
  unfold findDirs at h ⊢
  simp only at h ⊢
  generalize WalkDir lstat path (findDirsFn path) [] = r at h ⊢
  rcases r with ⟨s, _ | err⟩
  · exact absurd h (by simp)
  · rfl

theorem findDirs_lstat_error (c : Nat) (path : List Char) :
    findDirs (.error c) path = ([], some (GoError.errno c)) := by
  simp [findDirs, WalkDir, findDirsFn]

theorem Node.IsDir_of_firstReadErr {d : Node} {c : Nat} (h : d.firstReadErr = some c) :
    d.IsDir = true := by
  cases d with
  | file =>
    rw [Node.firstReadErr] at h
    exact absurd h (by simp)
  | dir es re => rfl

/-- C7: `findDirs` is all-or-nothing.  When the walk meets a read error (`os.Lstat` fails on
the root, or a directory of the tree cannot be read), `findDirs` returns that error together
with an empty list, whatever had been collected before; and whenever `findDirs` returns an
error, the list it returns is empty. -/
theorem findDirs_all_or_nothing (lstat : Except Nat Node) (path : List Char) (c : Nat)
    (hwf : statWellFormed lstat = true) (herr : walkReadErr lstat = some c) :
    findDirs lstat path = ([], some (GoError.errno c)) ∧
      ∀ (lstat' : Except Nat Node) (path' : List Char) (e : GoError),
        (findDirs lstat' path').2 = some e → (findDirs lstat' path').1 = [] := by
  refine ⟨?_, findDirs_error_nil⟩
  cases lstat with
  | error e =>
    simp only [walkReadErr] at herr
    rw [← Option.some.inj herr]
    exact findDirs_lstat_error e path
  | ok d =>
    exact findDirs_readErr d path c (Node.IsDir_of_firstReadErr herr) hwf herr

/-- C7, at a concrete tree: the directory `r` holds the readable directory `a` and the
directory `b`, whose listing fails with error 13. -/
theorem findDirs_all_or_nothing_witness :
    findDirs (.ok (Node.dir (Entries.cons "a".toList (Node.dir Entries.nil none)
        (Entries.cons "b".toList (Node.dir Entries.nil (some 13)) Entries.nil)) none))
      "r".toList = ([], some (GoError.errno 13)) :=
  (findDirs_all_or_nothing (.ok (Node.dir (Entries.cons "a".toList (Node.dir Entries.nil none)
    (Entries.cons "b".toList (Node.dir Entries.nil (some 13)) Entries.nil)) none))
    "r".toList 13 (by decide) (by decide)).1

theorem findDirs_file (path : List Char) :
    findDirs (.ok Node.file) path =
      ([], some (GoError.wrap path GoError.ErrNotDirectory)) := by
  simp [findDirs, WalkDir, walkDir_file]

/-- C8: when the root exists but is not a directory, `findDirs` returns no directory and an
error that wraps `ErrNotDirectory`; and on a well-formed tree an error that is
`ErrNotDirectory` is returned in that case only, never for an entry below the root. -/
theorem findDirs_ErrNotDirectory_iff (lstat : Except Nat Node) (path : List Char)
    (hwf : statWellFormed lstat = true) :
    ((∃ e, (findDirs lstat path).2 = some e ∧ e.Is GoError.ErrNotDirectory = true) ↔
        lstat = .ok Node.file) ∧
      (lstat = .ok Node.file →
        findDirs lstat path = ([], some (GoError.wrap path GoError.ErrNotDirectory))) := by
  refine ⟨⟨?_, ?_⟩, ?_⟩
  · rintro ⟨e, he, his⟩
    cases lstat with
    | error c =>
      rw [findDirs_lstat_error] at he
      simp only [Option.some.injEq] at he
      rw [← he] at his
      exact absurd his (by simp [GoError.Is])
    | ok d =>
      cases d with
      | file => rfl
      | dir es re =>
        exfalso
        cases hr : (Node.dir es re).firstReadErr with
        | none =>
          rw [findDirs_readable (Node.dir es re) path rfl hwf hr] at he
          exact absurd he (by simp)
        | some c =>
          rw [findDirs_readErr (Node.dir es re) path c rfl hwf hr] at he
          simp only [Option.some.injEq] at he
          rw [← he] at his
          exact absurd his (by simp [GoError.Is])
  · intro h
    rw [h, findDirs_file]
    exact ⟨_, rfl, by simp [GoError.Is]⟩
  · intro h
    rw [h, findDirs_file]

/-- C8, at a concrete tree: the root `f` is a plain file. -/
theorem findDirs_ErrNotDirectory_iff_witness :
    findDirs (.ok Node.file) "f".toList =
      ([], some (GoError.wrap "f".toList GoError.ErrNotDirectory)) :=
  (findDirs_ErrNotDirectory_iff (.ok Node.file) "f".toList (by decide)).2 rfl

theorem findDirs_ok_fst (d : Node) (path : List Char)
    (h : (findDirs (.ok d) path).2 = none) :
    (findDirs (.ok d) path).1 = (walkDir (findDirsFn path) path (Base path) d []).1 := by
  unfold findDirs WalkDir at h ⊢
  simp only at h ⊢
  generalize walkDir (findDirsFn path) path (Base path) d [] = r at h ⊢
  rcases r with ⟨s, _ | err⟩
  · simp
  · simp only at h ⊢
    split_ifs at h ⊢ with hs
    rfl

theorem walkDir_dir_head (root path name : List Char) (es : Entries) (re : Option Nat) :
    ∃ l, (walkDir (findDirsFn root) path name (Node.dir es re) []).1 = path :: l := by
  cases re with
  | some c =>
    rw [walkDir_dir_err]
    exact ⟨[], rfl⟩
  | none =>
    rw [walkDir_dir_ok]
    obtain ⟨l, hl⟩ := walkEntries_extends root es path ([] ++ [path])
    exact ⟨l, hl⟩

theorem findDirs_success_head (lstat : Except Nat Node) (path : List Char)
    (h : (findDirs lstat path).2 = none) : (findDirs lstat path).1.head? = some path := by
  cases lstat with
  | error c =>
    rw [findDirs_lstat_error] at h
    exact absurd h (by simp)
  | ok d =>
    cases d with
    | file =>
      rw [findDirs_file] at h
      exact absurd h (by simp)
    | dir es re =>
      obtain ⟨l, hl⟩ := walkDir_dir_head path path (Base path) es re
      rw [findDirs_ok_fst _ path h, hl]
      rfl

/-- C9: when `findDirs` succeeds, the list it returns is not empty and its first element is
the root path exactly as it was passed in. -/
theorem findDirs_head (lstat : Except Nat Node) (path : List Char)
    (h : (findDirs lstat path).2 = none) : (findDirs lstat path).1.head? = some path :=
  findDirs_success_head lstat path h

/-- C9, at a concrete tree: the empty directory `a`. -/
theorem findDirs_head_witness :
    (findDirs (.ok (Node.dir Entries.nil none)) "a".toList).1.head? = some "a".toList :=
  findDirs_head (.ok (Node.dir Entries.nil none)) "a".toList (by decide)

theorem IsAbs_eq_rootedOf (p : List Char) : IsAbs p = rootedOf p := by
  cases p with
  | nil => rfl
  | cons c t => simp [IsAbs, rootedOf, IsPathSeparator]

/-- Cleaning keeps a path absolute or relative. -/
theorem Clean_rootedOf (p : List Char) (hne : p ≠ []) : rootedOf (Clean p) = rootedOf p := by
  obtain ⟨k, cs, hrep⟩ := stateOf_rep p
  have hk : pathKey p = render (rootedOf p) (List.replicate k ['.', '.'] ++ cs) := hrep.out_eq
  have hr : rootedOf (render (rootedOf p) (List.replicate k ['.', '.'] ++ cs)) = rootedOf p :=
    rootedOf_render (rootedOf p) _ (isElem_of_rep_mem hrep.valid)
  rw [← hk] at hr
  rw [Clean_eq p hne]
  split
  · next h0 =>
    have h1 : pathKey p = [] := List.length_eq_zero.1 (by simpa using h0)
    rw [h1] at hr
    rw [← hr]
    rfl
  · exact hr

/-- Joining anything to a non-empty path keeps it absolute or relative. -/
theorem IsAbs_Join (p n : List Char) (hne : p ≠ []) : IsAbs (Join p n) = IsAbs p := by
  unfold Join
  rw [if_pos hne, IsAbs_eq_rootedOf, IsAbs_eq_rootedOf, Clean_rootedOf _ (by simp [hne]),
    rootedOf_append p _ hne]

/-- Joining a valid entry name to any path keeps it absolute or relative. -/
theorem IsAbs_Join_validName (p n : List Char) (hn : validName n = true) :
    IsAbs (Join p n) = IsAbs p := by
  by_cases hne : p = []
  · have hr : rootedOf n = false := by
      cases n with
      | nil => exact absurd hn (by decide)
      | cons c t =>
        have := ((validName_iff _).1 hn).2.1 c (List.mem_cons_self _ _)
        simpa [rootedOf, notSep] using this
    rw [hne, Join_validName [] n hn, IsAbs_eq_rootedOf, IsAbs_eq_rootedOf]
    have : push (rootedOf []) (pathKey []) n = n := by
      have hk : pathKey [] = [] := by
        unfold pathKey stateOf
        exact congrArg Prod.fst (cleanLoop_nil _ _ _)
      rw [hk]
      rfl
    rw [this, hr]
    rfl
  · exact IsAbs_Join p n hne

mutual
/-- Walking a well-formed subtree collects only paths that are absolute or relative as the
path walked from is. -/
theorem walkDir_sameAbs (root : List Char) (b : Bool) :
    ∀ (d : Node) (path name : List Char) (s : List (List Char)), d.wellFormed = true →
      IsAbs path = b → (∀ q ∈ s, IsAbs q = b) →
      ∀ q ∈ (walkDir (findDirsFn root) path name d s).1, IsAbs q = b
  | .file, path, name, s, _, _, hs => by
    rw [walkDir_file]
    split <;> exact hs
  | .dir es (some e), path, name, s, _, hp, hs => by
    rw [walkDir_dir_err]
    intro q hq
    rcases List.mem_append.1 hq with hq | hq
    · exact hs q hq
    · rw [List.mem_singleton.1 hq]
      exact hp
  | .dir es none, path, name, s, hwf, hp, hs => by
    rw [Node.wellFormed] at hwf
    rw [walkDir_dir_ok]
    apply walkEntries_sameAbs root b es path (s ++ [path]) hwf hp
    intro q hq
    rcases List.mem_append.1 hq with hq | hq
    · exact hs q hq
    · rw [List.mem_singleton.1 hq]
      exact hp
/-- The same for the loop over a listing. -/
theorem walkEntries_sameAbs (root : List Char) (b : Bool) :
    ∀ (es : Entries) (path : List Char) (s : List (List Char)), es.wellFormed = true →
      IsAbs path = b → (∀ q ∈ s, IsAbs q = b) →
      ∀ q ∈ (walkEntries (findDirsFn root) path es s).1, IsAbs q = b
  | .nil, path, s, _, _, hs => by
    rw [walkEntries_nil]
    exact hs
  | .cons name d rest, path, s, hwf, hp, hs => by
    obtain ⟨hname, _, hd, hrest⟩ := Entries.wellFormed_cons name d rest hwf
    have h1 := walkDir_sameAbs root b d (Join path name) name s hd
      (by rw [IsAbs_Join_validName path name hname]; exact hp) hs
    rcases hw : walkDir (findDirsFn root) (Join path name) name d s with ⟨s1, _ | err⟩
    · rw [hw] at h1
      rw [walkEntries_cons_ok _ _ _ _ _ _ _ hw]
      exact walkEntries_sameAbs root b rest path s1 hrest hp h1
    · rw [hw] at h1
      rw [walkEntries_cons_err _ _ _ _ _ _ _ _ hw]
      split <;> exact h1
end

theorem findDirs_sameAbs (lstat : Except Nat Node) (path : List Char)
    (hwf : statWellFormed lstat = true) (h : (findDirs lstat path).2 = none) :
    ∀ q ∈ (findDirs lstat path).1, IsAbs q = IsAbs path := by
  cases lstat with
  | error c =>
    rw [findDirs_lstat_error] at h
    exact absurd h (by simp)
  | ok d =>
    rw [findDirs_ok_fst d path h]
    exact walkDir_sameAbs path (IsAbs path) d path (Base path) [] hwf rfl
      (fun _ hq => absurd hq (List.not_mem_nil _))

theorem findDirs_relative_example :
    findDirs (.ok (Node.dir (Entries.cons "b".toList (Node.dir Entries.nil none) Entries.nil)
      none)) "a".toList = (["a".toList, "a/b".toList], none) := by
  rw [findDirs_readable _ _ (by decide) (by decide) (by decide)]
  simp [Node.listing, Entries.listing, dirsOf, Join, Clean, cleanLoop, IsPathSeparator, notSep]

/-- C10 fails as stated: on the relative root `a`, a directory holding the directory `b`,
`findDirs` succeeds and returns the relative paths `a` and `a/b`. -/
theorem findDirs_absolute_counterexample :
    findDirs (.ok (Node.dir (Entries.cons "b".toList (Node.dir Entries.nil none) Entries.nil)
        none)) "a".toList = (["a".toList, "a/b".toList], none) ∧
      IsAbs "a".toList = false ∧ IsAbs "a/b".toList = false ∧
      ¬ ∀ q ∈ (findDirs (.ok (Node.dir (Entries.cons "b".toList (Node.dir Entries.nil none)
        Entries.nil) none)) "a".toList).1, IsAbs q = true := by
  refine ⟨findDirs_relative_example, by decide, by decide, ?_⟩
  rw [findDirs_relative_example]
  decide

/-- C10, amended: when `findDirs` succeeds on a well-formed tree, every element of the returned
list is absolute if the root path passed in is absolute and relative if it is relative, the
root and the elements below it alike; so all elements are absolute exactly when the root path
is.  Paths are not made absolute. -/
theorem findDirs_absolute_as_root (lstat : Except Nat Node) (path : List Char)
    (hwf : statWellFormed lstat = true) (h : (findDirs lstat path).2 = none) :
    (∀ q ∈ (findDirs lstat path).1, IsAbs q = IsAbs path) ∧
      ((∀ q ∈ (findDirs lstat path).1, IsAbs q = true) ↔ IsAbs path = true) := by
  have hall := findDirs_sameAbs lstat path hwf h
  refine ⟨hall, ?_, ?_⟩
  · intro habs
    have hh := findDirs_success_head lstat path h
    cases hl : (findDirs lstat path).1 with
    | nil =>
      rw [hl] at hh
      exact absurd hh (by simp)
    | cons a l =>
      rw [hl] at hh
      simp only [List.head?_cons, Option.some.injEq] at hh
      rw [← hh]
      exact habs a (by rw [hl]; exact List.mem_cons_self _ _)
  · intro hp q hq
    rw [hall q hq]
    exact hp

/-- C10, amended, at a concrete tree: the relative root `a` holding the directory `b`; the
returned path `a/b` below the root is relative, as the root is. -/
theorem findDirs_absolute_as_root_witness :
    "a/b".toList ∈ (findDirs (.ok (Node.dir (Entries.cons "b".toList (Node.dir Entries.nil none)
        Entries.nil) none)) "a".toList).1 ∧
      IsAbs "a/b".toList = IsAbs "a".toList :=
  ⟨by rw [findDirs_relative_example]; decide,
    (findDirs_absolute_as_root (.ok (Node.dir (Entries.cons "b".toList
      (Node.dir Entries.nil none) Entries.nil) none)) "a".toList (by decide)
      (congrArg Prod.snd (findDirs_readable (Node.dir (Entries.cons "b".toList
        (Node.dir Entries.nil none) Entries.nil) none) "a".toList
        (by decide) (by decide) (by decide)))).1 "a/b".toList
      (by rw [findDirs_relative_example]; decide)⟩

/-! ## Theorems: the recursive-path convention -/

/-- A trailing separator does not change the result of `Clean`. -/
theorem Clean_append_sep (q : List Char) (hq : q ≠ []) : Clean (q ++ ['/']) = Clean q := by
  have hk : pathKey (q ++ ['/']) = pathKey q := by
    unfold pathKey stateOf
    rw [rootedOf_append q _ hq, body_append _ q _ hq, cleanLoop_append_sep, cleanLoop_nil]
  rw [Clean_eq _ (by simp), Clean_eq q hq, hk]

theorem Clean_ne_nil (p : List Char) : Clean p ≠ [] := by
  by_cases hp : p = []
  · rw [hp]
    decide
  · rw [Clean_eq p hp]
    split
    · simp
    · next h => simpa using h

theorem marker_eq (q : List Char) :
    q ++ "/...".toList = (((q ++ ['/']) ++ ['.']) ++ ['.']) ++ ['.'] := by
  simp

theorem Base_marker (q : List Char) : Base (q ++ "/...".toList) = "...".toList := by
  unfold Base
  rw [if_neg (by simp)]
  simp only [marker_eq]
  rw [List.rdropWhile_concat_neg _ _ _ (by decide),
    List.rtakeWhile_concat_pos _ _ _ (by decide), List.rtakeWhile_concat_pos _ _ _ (by decide),
    List.rtakeWhile_concat_pos _ _ _ (by decide), List.rtakeWhile_concat_neg _ _ _ (by decide)]
  rfl

theorem Dir_marker (q : List Char) : Dir (q ++ "/...".toList) = Clean (q ++ ['/']) := by
  unfold Dir
  simp only [marker_eq]
  rw [List.rdropWhile_concat_pos _ _ _ (by decide), List.rdropWhile_concat_pos _ _ _ (by decide),
    List.rdropWhile_concat_pos _ _ _ (by decide), List.rdropWhile_concat_neg _ _ _ (by decide)]

/-- The marker appended to a cleaned path is recognised and removed again. -/
theorem recursivePath_marker (q : List Char) (hq : Clean q = q) :
    recursivePath (q ++ "/...".toList) = (q, true) := by
  have hne : q ≠ [] := by
    rw [← hq]
    exact Clean_ne_nil q
  unfold recursivePath
  rw [if_pos (Base_marker q), Dir_marker, Clean_append_sep q hne, hq]

/-- C5: the code evaluated where it breaks the round trip that the claim and the comment on
`recursivePath` describe.  The path `...` is reported recursive with base path `.`, and
re-appending the marker gives `./...`; the path `a/.../` is reported recursive with base path
`a/...`, the marker still in it. -/
theorem recursivePath_marker_kept :
    recursivePath "...".toList = (".".toList, true) ∧
      ".".toList ++ "/".toList ++ "...".toList ≠ "...".toList ∧
      recursivePath "a/.../".toList = ("a/...".toList, true) ∧
      "a/...".toList ++ "/".toList ++ "...".toList ≠ "a/.../".toList := by
  refine ⟨by decide, by decide, ?_, by decide⟩
  simp [recursivePath, Base, Dir, Clean, cleanLoop, List.rdropWhile, List.rtakeWhile,
    IsPathSeparator, notSep]

theorem rdropWhile_append_rtakeWhile (p : Char → Bool) (l : List Char) :
    l.rdropWhile p ++ l.rtakeWhile p = l := by
  unfold List.rdropWhile List.rtakeWhile
  rw [← List.reverse_append, List.takeWhile_append_dropWhile, List.reverse_reverse]

theorem rdropWhile_append_of_all (p : Char → Bool) (l s : List Char)
    (hs : ∀ c ∈ s, p c = true) : (l ++ s).rdropWhile p = l.rdropWhile p := by
  induction s using List.reverseRecOn with
  | nil => rw [List.append_nil]
  | append_singleton s x ih =>
    rw [← List.append_assoc, List.rdropWhile_concat_pos _ _ _ (hs x (by simp))]
    exact ih (fun c hc => hs c (List.mem_append_left _ hc))

theorem rdropWhile_nil_or_last (p : Char → Bool) (l : List Char) :
    l.rdropWhile p = [] ∨ ∃ q x, l.rdropWhile p = q ++ [x] ∧ p x = false := by
  by_cases h : l.rdropWhile p = []
  · exact Or.inl h
  · refine Or.inr ⟨(l.rdropWhile p).dropLast, (l.rdropWhile p).getLast h,
      (List.dropLast_append_getLast h).symm, ?_⟩
    have := List.rdropWhile_last_not p l h
    simpa using this

/-- The shape of the paths whose last element is the marker: the marker, at the beginning of
the path or right after a separator, followed by separators only. -/
theorem Base_eq_marker_iff (p : List Char) :
    Base p = "...".toList ↔
      ∃ q s, p = q ++ "...".toList ++ s ∧ (∀ c ∈ s, c = '/') ∧
        (q = [] ∨ ∃ q', q = q' ++ ['/']) := by
  constructor
  · intro h
    have hp : p ≠ [] := by
      rintro rfl
      exact absurd h (by decide)
    unfold Base at h
    rw [if_neg hp] at h
    simp only at h
    have he : (p.rdropWhile IsPathSeparator).rtakeWhile notSep = "...".toList := by
      split at h
      · exact absurd h (by decide)
      · exact h
    refine ⟨(p.rdropWhile IsPathSeparator).rdropWhile notSep, p.rtakeWhile IsPathSeparator,
      ?_, ?_, ?_⟩
    · rw [← he, rdropWhile_append_rtakeWhile, rdropWhile_append_rtakeWhile]
    · intro c hc
      have := List.mem_rtakeWhile_imp hc
      simpa [IsPathSeparator] using this
    · rcases rdropWhile_nil_or_last notSep (p.rdropWhile IsPathSeparator) with h0 | ⟨q, x, h0, hx⟩
      · exact Or.inl h0
      · refine Or.inr ⟨q, ?_⟩
        rw [h0]
        have : x = '/' := by simpa [notSep, IsPathSeparator] using hx
        rw [this]
  · rintro ⟨q, s, rfl, hs, hq⟩
    have hs' : ∀ c ∈ s, IsPathSeparator c = true := by
      intro c hc
      rw [hs c hc]
      rfl
    have e1 : q ++ "...".toList = ((q ++ ['.']) ++ ['.']) ++ ['.'] := by simp
    unfold Base
    rw [if_neg (by simp)]
    simp only
    rw [rdropWhile_append_of_all _ _ _ hs', e1, List.rdropWhile_concat_neg _ _ _ (by decide),
      List.rtakeWhile_concat_pos _ _ _ (by decide), List.rtakeWhile_concat_pos _ _ _ (by decide),
      List.rtakeWhile_concat_pos _ _ _ (by decide)]
    have hq0 : q.rtakeWhile notSep = [] := by
      rcases hq with rfl | ⟨q', rfl⟩
      · rfl
      · exact List.rtakeWhile_concat_neg _ _ _ (by decide)
    rw [hq0]
    rfl

/-- C4: `recursivePath` is a total function; it reports `true` exactly when `filepath.Base` of
the input is the three-character string `...`, that is when the input is the marker, at its
beginning or right after a separator, followed by separators only; and whenever it reports
`false` the returned base path is the input itself. -/
theorem recursivePath_isRecursive_iff (p : List Char) :
    ((recursivePath p).2 = true ↔ Base p = "...".toList) ∧
      ((recursivePath p).2 = true ↔
        ∃ q s, p = q ++ "...".toList ++ s ∧ (∀ c ∈ s, c = '/') ∧
          (q = [] ∨ ∃ q', q = q' ++ ['/'])) ∧
      ((recursivePath p).2 = false → (recursivePath p).1 = p) := by
  have h1 : (recursivePath p).2 = true ↔ Base p = "...".toList := by
    unfold recursivePath
    split
    · next h => exact ⟨fun _ => h, fun _ => rfl⟩
    · next h => exact ⟨fun ht => absurd ht (by simp), fun hb => absurd hb h⟩
  refine ⟨h1, h1.trans (Base_eq_marker_iff p), ?_⟩
  unfold recursivePath
  split
  · intro hf
    exact absurd hf (by simp)
  · intro _
    rfl

/-! ## Theorems: the flags and the order given by `Op.Has` -/

theorem Op.String_eq_render5 (m : Op) :
    Op.String m =
      render5 (m.testBit 0) (m.testBit 1) (m.testBit 2) (m.testBit 3) (m.testBit 4) := by
  have h0 : Op.Has m Create = m.testBit 0 := Op.has_two_pow m 0
  have h1 : Op.Has m Write = m.testBit 1 := Op.has_two_pow m 1
  have h2 : Op.Has m Remove = m.testBit 2 := Op.has_two_pow m 2
  have h3 : Op.Has m Rename = m.testBit 3 := Op.has_two_pow m 3
  have h4 : Op.Has m Chmod = m.testBit 4 := Op.has_two_pow m 4
  unfold Op.String render5
  simp only [h0, h1, h2, h3, h4]

set_option maxRecDepth 100000 in
theorem render5_injective :
    ∀ b0 b1 b2 b3 b4 c0 c1 c2 c3 c4 : Bool,
      render5 b0 b1 b2 b3 b4 = render5 c0 c1 c2 c3 c4 →
        b0 = c0 ∧ b1 = c1 ∧ b2 = c2 ∧ b3 = c3 ∧ b4 = c4 := by
  decide

theorem Op.and_31_eq_iff (m1 m2 : Nat) :
    m1 &&& 31 = m2 &&& 31 ↔
      (m1.testBit 0 = m2.testBit 0 ∧ m1.testBit 1 = m2.testBit 1 ∧
        m1.testBit 2 = m2.testBit 2 ∧ m1.testBit 3 = m2.testBit 3 ∧
        m1.testBit 4 = m2.testBit 4) := by
  have h31 : ∀ i, (31 : Nat).testBit i = decide (i < 5) := fun i =>
    Nat.testBit_two_pow_sub_one 5 i
  constructor
  · intro h
    have key : ∀ i, i < 5 → m1.testBit i = m2.testBit i := by
      intro i hi
      have := congrArg (fun x => Nat.testBit x i) h
      simpa [Nat.testBit_and, h31, hi] using this
    exact ⟨key 0 (by omega), key 1 (by omega), key 2 (by omega), key 3 (by omega),
      key 4 (by omega)⟩
  · rintro ⟨h0, h1, h2, h3, h4⟩
    apply Nat.eq_of_testBit_eq
    intro i
    rw [Nat.testBit_and, Nat.testBit_and, h31]
    by_cases hi : i < 5
    · have : i = 0 ∨ i = 1 ∨ i = 2 ∨ i = 3 ∨ i = 4 := by omega
      rcases this with rfl | rfl | rfl | rfl | rfl <;> simp [*]
    · simp [hi]

/-- C17: `Op.String` depends on exactly the five flag bits and determines them: two masks
render to the same text if and only if they agree on the low five bits. -/
theorem Op.String_eq_iff (m1 m2 : Op) :
    Op.String m1 = Op.String m2 ↔ m1 &&& 31 = m2 &&& 31 := by
  rw [Op.and_31_eq_iff, Op.String_eq_render5, Op.String_eq_render5]
  constructor
  · exact render5_injective _ _ _ _ _ _ _ _ _ _
  · rintro ⟨h0, h1, h2, h3, h4⟩
    rw [h0, h1, h2, h3, h4]

theorem allFlags_two_pow : ∀ X ∈ allFlags, ∃ k, X = 2 ^ k := by
  intro X hX
  simp only [allFlags, List.mem_cons, List.mem_singleton, List.not_mem_nil, or_false] at hX
  rcases hX with rfl | rfl | rfl | rfl | rfl
  · exact ⟨0, rfl⟩
  · exact ⟨1, rfl⟩
  · exact ⟨2, rfl⟩
  · exact ⟨3, rfl⟩
  · exact ⟨4, rfl⟩

theorem allFlags_has_iff : ∀ X ∈ allFlags, ∀ Y ∈ allFlags, (Op.Has X Y = true ↔ X = Y) := by
  decide

theorem foldl_or_testBit (S : List Nat) (m k : Nat) :
    (S.foldl (fun m x => m ||| x) m).testBit k = (m.testBit k || S.any (fun x => x.testBit k)) := by
  induction S generalizing m with
  | nil => simp
  | cons x S ih =>
    rw [List.foldl_cons, ih, Nat.testBit_or, List.any_cons, Bool.or_assoc]

theorem has_orAll_iff (S : List Op) (hS : ∀ x ∈ S, x ∈ allFlags) (X : Op)
    (hX : X ∈ allFlags) : Op.Has (orAll S) X = true ↔ X ∈ S := by
  obtain ⟨k, hk⟩ := allFlags_two_pow X hX
  have hbit : ∀ x, Op.Has x X = x.testBit k := fun x => by rw [hk]; exact Op.has_two_pow x k
  rw [hbit, orAll, foldl_or_testBit, Nat.zero_testBit, Bool.false_or, List.any_eq_true]
  constructor
  · rintro ⟨x, hx, hxk⟩
    rw [← hbit] at hxk
    rw [← (allFlags_has_iff x (hS x hx) X hX).1 hxk]
    exact hx
  · intro h
    refine ⟨X, h, ?_⟩
    rw [← hbit]
    exact (allFlags_has_iff X hX X hX).2 rfl

/-- C15: the five operation constants are independent bit flags: each is a non-zero value with
a single bit set, the AND of two different ones is 0, `Op.Has X Y` holds for two of them
exactly when they are equal, and a mask built as the OR of a set of them has exactly the flags
of that set. -/
theorem flags_independent :
    (Create = 2 ^ 0 ∧ Write = 2 ^ 1 ∧ Remove = 2 ^ 2 ∧ Rename = 2 ^ 3 ∧ Chmod = 2 ^ 4) ∧
      (∀ X ∈ allFlags, X ≠ 0) ∧
      (∀ X ∈ allFlags, ∀ Y ∈ allFlags, X ≠ Y → X &&& Y = 0) ∧
      (∀ X ∈ allFlags, ∀ Y ∈ allFlags, (Op.Has X Y = true ↔ X = Y)) ∧
      (∀ S : List Op, (∀ x ∈ S, x ∈ allFlags) →
        ∀ X ∈ allFlags, (Op.Has (orAll S) X = true ↔ X ∈ S)) :=
  ⟨by decide, by decide, by decide, allFlags_has_iff, has_orAll_iff⟩

/-- C15, at the mask `Create | Chmod` and the flag `Chmod`. -/
theorem flags_independent_witness :
    Op.Has (orAll [Create, Chmod]) Chmod = true ↔ Chmod ∈ [Create, Chmod] :=
  flags_independent.2.2.2.2 [Create, Chmod] (by decide) Chmod (by decide)

theorem Op.has_or_iff (a b c : Op) :
    Op.Has a (b ||| c) = true ↔ Op.Has a b = true ∧ Op.Has a c = true := by
  simp only [Op.has_iff_testBit, Nat.testBit_or, Bool.or_eq_true]
  constructor
  · intro h
    exact ⟨fun i hi => h i (Or.inl hi), fun i hi => h i (Or.inr hi)⟩
  · rintro ⟨h1, h2⟩ i (hi | hi)
    · exact h1 i hi
    · exact h2 i hi

theorem Op.has_antisymm (a b : Op) (h1 : Op.Has a b = true) (h2 : Op.Has b a = true) :
    a = b := by
  rw [Op.has_iff_testBit] at h1 h2
  apply Nat.eq_of_testBit_eq
  intro i
  cases ha : a.testBit i <;> cases hb : b.testBit i
  · rfl
  · rw [h1 i hb] at ha
    exact absurd ha (by decide)
  · rw [h2 i ha] at hb
    exact absurd hb (by decide)
  · rfl

/-- C18: `Op.Has` is a partial order compatible with OR: it is reflexive, every mask has the
empty mask, it is transitive and antisymmetric, and a mask has `b | c` exactly when it has `b`
and has `c`; `Event.Has` is `Op.Has` on the event's mask. -/
theorem Op.Has_partial_order (a b c : Op) (e : Event) (f : Op) :
    Op.Has a a = true ∧ Op.Has a 0 = true ∧
      (Op.Has a b = true → Op.Has b c = true → Op.Has a c = true) ∧
      (Op.Has a b = true → Op.Has b a = true → a = b) ∧
      (Op.Has a (b ||| c) = true ↔ Op.Has a b = true ∧ Op.Has a c = true) ∧
      Event.Has e f = Op.Has e.Op f := by
  refine ⟨?_, ?_, ?_, Op.has_antisymm a b, Op.has_or_iff a b c, rfl⟩
  · rw [Op.has_iff_testBit]
    exact fun _ h => h
  · rw [Op.has_iff_testBit]
    intro i hi
    rw [Nat.zero_testBit] at hi
    exact absurd hi (by decide)
  · simp only [Op.has_iff_testBit]
    exact fun h1 h2 i hi => h1 i (h2 i hi)

/-- C18, at the masks 7, 3 and 1: 7 has 3 and 3 has 1, so 7 has 1. -/
theorem Op.Has_partial_order_witness : Op.Has 7 1 = true :=
  (Op.Has_partial_order 7 3 1 (Event.mk [] 0) 0).2.2.1 (by decide) (by decide)

/-! ## Theorems: the resource limit -/

theorem SetRlimit_query_failed (env : Env) (p : Proc) (e : Nat)
    (hg : env.getrlimitErr = some e) :
    SetRlimit env p = Proc.mk p.soft p.hard p.updates 0 := by
  simp [SetRlimit, Getrlimit, hg]

theorem SetRlimit_equal (env : Env) (p : Proc) (hg : env.getrlimitErr = none)
    (heq : p.soft = p.hard) : SetRlimit env p = Proc.mk p.soft p.hard p.updates p.soft := by
  simp [SetRlimit, Getrlimit, hg, heq]

theorem SetRlimit_raised (env : Env) (p : Proc) (hg : env.getrlimitErr = none)
    (hs : env.setrlimitErr = none) (hne : p.soft ≠ p.hard) :
    SetRlimit env p =
      Proc.mk p.hard p.hard (p.updates ++ [Rlimit.mk p.hard p.hard]) p.hard := by
  simp [SetRlimit, Getrlimit, Setrlimit, hg, hs, hne]

theorem SetRlimit_raise_failed (env : Env) (p : Proc) (e : Nat)
    (hg : env.getrlimitErr = none) (hs : env.setrlimitErr = some e) (hne : p.soft ≠ p.hard) :
    SetRlimit env p =
      Proc.mk p.soft p.hard (p.updates ++ [Rlimit.mk p.hard p.hard]) p.hard := by
  simp [SetRlimit, Getrlimit, Setrlimit, hg, hs, hne]

/-- C12: when the limit query and the limit update both succeed, after `SetRlimit` the soft
limit of the operating system equals the hard limit, the hard limit is unchanged and
`Maxfiles` returns that soft limit; when the soft limit already equals the hard limit no update
is issued and `Maxfiles` returns that value, otherwise exactly one update is issued. -/
theorem SetRlimit_success (env : Env) (p : Proc) (hg : env.getrlimitErr = none)
    (hs : env.setrlimitErr = none) :
    (SetRlimit env p).soft = p.hard ∧ (SetRlimit env p).hard = p.hard ∧
      Maxfiles (SetRlimit env p) = (SetRlimit env p).soft ∧
      (p.soft = p.hard →
        (SetRlimit env p).updates = p.updates ∧ Maxfiles (SetRlimit env p) = p.soft) ∧
      (p.soft ≠ p.hard →
        (SetRlimit env p).updates = p.updates ++ [Rlimit.mk p.hard p.hard]) := by
  by_cases heq : p.soft = p.hard
  · rw [SetRlimit_equal env p hg heq]
    exact ⟨heq, rfl, rfl, fun _ => ⟨rfl, rfl⟩, fun h => absurd heq h⟩
  · rw [SetRlimit_raised env p hg hs heq]
    exact ⟨rfl, rfl, rfl, fun h => absurd h heq, fun _ => rfl⟩

/-- C12, at soft limit 256 and hard limit 1024. -/
theorem SetRlimit_success_witness :
    (SetRlimit (Env.mk none none) (Proc.mk 256 1024 [] 0)).soft = 1024 :=
  (SetRlimit_success (Env.mk none none) (Proc.mk 256 1024 [] 0) rfl rfl).1

/-- C13 fails as stated: after a successful `SetRlimit` (soft 256, hard 1024) has cached 1024,
a second `SetRlimit` whose limit query fails resets `Maxfiles` to zero. -/
theorem SetRlimit_failure_counterexample :
    Maxfiles (SetRlimit (Env.mk none none) (Proc.mk 256 1024 [] 0)) = 1024 ∧
      Maxfiles (SetRlimit (Env.mk (some 1) none)
        (SetRlimit (Env.mk none none) (Proc.mk 256 1024 [] 0))) = 0 := by
  decide

/-- C13, amended: `SetRlimit` always returns.  If the limit query fails, the limits of the
operating system are left as they were, no update is issued and `Maxfiles` afterwards returns
0, whatever it returned before.  If the query succeeds and the update fails, the limits of the
operating system are left as they were. -/
theorem SetRlimit_failure (env : Env) (p : Proc) :
    (env.getrlimitErr ≠ none →
        (SetRlimit env p).soft = p.soft ∧ (SetRlimit env p).hard = p.hard ∧
          (SetRlimit env p).updates = p.updates ∧ Maxfiles (SetRlimit env p) = 0) ∧
      (env.getrlimitErr = none → env.setrlimitErr ≠ none →
        (SetRlimit env p).soft = p.soft ∧ (SetRlimit env p).hard = p.hard) := by
  constructor
  · intro hg
    cases hge : env.getrlimitErr with
    | none => exact absurd hge hg
    | some e =>
      rw [SetRlimit_query_failed env p e hge]
      exact ⟨rfl, rfl, rfl, rfl⟩
  · intro hg hs
    cases hse : env.setrlimitErr with
    | none => exact absurd hse hs
    | some e =>
      by_cases heq : p.soft = p.hard
      · rw [SetRlimit_equal env p hg heq]
        exact ⟨rfl, rfl⟩
      · rw [SetRlimit_raise_failed env p e hg hse heq]
        exact ⟨rfl, rfl⟩

/-- C13, amended, at a failing limit query with 1024 cached before. -/
theorem SetRlimit_failure_witness :
    Maxfiles (SetRlimit (Env.mk (some 1) none) (Proc.mk 1024 1024 [] 1024)) = 0 :=
  ((SetRlimit_failure (Env.mk (some 1) none) (Proc.mk 1024 1024 [] 1024)).1 (by decide)).2.2.2

/-- C14: `SetRlimit` is idempotent on the cached limit and on the limits of the operating
system: for every initial state, with the operating system answering the calls of the second
run as it answered those of the first, running `SetRlimit` twice leaves `Maxfiles` and the soft
and hard limits as the first run left them. -/
theorem SetRlimit_idempotent (env : Env) (p : Proc) :
    Maxfiles (SetRlimit env (SetRlimit env p)) = Maxfiles (SetRlimit env p) ∧
      (SetRlimit env (SetRlimit env p)).soft = (SetRlimit env p).soft ∧
      (SetRlimit env (SetRlimit env p)).hard = (SetRlimit env p).hard := by
  cases hge : env.getrlimitErr with
  | some e =>
    rw [SetRlimit_query_failed env p e hge, SetRlimit_query_failed env _ e hge]
    exact ⟨rfl, rfl, rfl⟩
  | none =>
    by_cases heq : p.soft = p.hard
    · rw [SetRlimit_equal env p hge heq,
        SetRlimit_equal env (Proc.mk p.soft p.hard p.updates p.soft) hge heq]
      exact ⟨rfl, rfl, rfl⟩
    · cases hse : env.setrlimitErr with
      | none =>
        rw [SetRlimit_raised env p hge hse heq, SetRlimit_equal env _ hge rfl]
        exact ⟨rfl, rfl, rfl⟩
      | some e =>
        rw [SetRlimit_raise_failed env p e hge hse heq,
          SetRlimit_raise_failed env
            (Proc.mk p.soft p.hard (p.updates ++ [Rlimit.mk p.hard p.hard]) p.hard) e hge hse heq]
        exact ⟨rfl, rfl, rfl⟩

/-! ## Theorems: `Event.String` -/

theorem appendHex_eq (buf : List Nat) (r : Nat) (digits : Nat) :
    appendHex buf r digits = buf ++ hexDigits digits r := by
  induction digits generalizing buf with
  | zero => simp [appendHex, hexDigits]
  | succ n ih =>
    rw [appendHex, ih]
    have h16 : (16 : Nat) ^ n = 2 ^ (4 * n) := by rw [pow_mul]; norm_num
    have hand : ∀ x : Nat, x &&& 0xF = x % 16 := fun x => Nat.and_pow_two_sub_one_eq_mod x 4
    simp [hexDigits, List.range_succ, Nat.shiftRight_eq_div_pow, hand, h16]


theorem AppendRune_append (buf : List Nat) (r : Nat) :
    AppendRune buf r = buf ++ AppendRune [] r := by
  unfold AppendRune appendRuneNonASCII
  repeat' split
  all_goals simp

theorem hexDigits_two (b : Nat) : hexDigits 2 b = [lowerhex (b / 16 % 16), lowerhex (b % 16)] := by
  simp [hexDigits, List.range_succ]

theorem appendEscapedRune_eq (table : Nat → Bool) (buf : List Nat) (r : Nat) :
    appendEscapedRune table buf r = buf ++ escapeRune table r := by
  have hand : ∀ x : Nat, x &&& 0xF = x % 16 := fun x => Nat.and_pow_two_sub_one_eq_mod x 4
  unfold appendEscapedRune escapeRune
  by_cases h1 : r = 0x22
  · subst h1; simp [dquote, backslash]
  by_cases h2 : r = 0x5C
  · subst h2; simp [dquote, backslash]
  have hq : (r == dquote || r == backslash) = false := by simp [dquote, backslash, h1, h2]
  rw [hq, if_neg h1, if_neg h2]
  simp only [Bool.false_eq_true, if_false]
  by_cases h3 : IsPrint table r = true
  · simp only [h3, if_true]; exact AppendRune_append buf r
  simp only [h3, Bool.false_eq_true, if_false]
  by_cases h4 : r = 7
  · subst h4; simp [asciiBytes, backslash]
  by_cases h5 : r = 8
  · subst h5; simp [asciiBytes, backslash]
  by_cases h6 : r = 12
  · subst h6; simp [asciiBytes, backslash]
  by_cases h7 : r = 10
  · subst h7; simp [asciiBytes, backslash]
  by_cases h8 : r = 13
  · subst h8; simp [asciiBytes, backslash]
  by_cases h9 : r = 9
  · subst h9; simp [asciiBytes, backslash]
  by_cases h10 : r = 11
  · subst h10; simp [asciiBytes, backslash]
  simp only [beq_iff_eq, h4, h5, h6, h7, h8, h9, h10, if_false]
  by_cases h11 : r < 0x20 ∨ r = 0x7F
  · have hlt : r < 256 := by omega
    have hc : (decide (r < 0x20) || r == 0x7F) = true := by
      rcases h11 with h | h
      · simp [h]
      · simp [h]
    rw [if_pos hc, if_pos h11, hexDigits_two, hand, Nat.shiftRight_eq_div_pow,
      Nat.mod_eq_of_lt hlt]
    have h16 : r / 16 % 16 = r / 16 := Nat.mod_eq_of_lt (by omega)
    simp [asciiBytes, backslash, h16]
  have hc : (decide (r < 0x20) || r == 0x7F) = false := by
    rcases Bool.eq_false_or_eq_true (decide (r < 0x20) || r == 0x7F) with h | h
    · exfalso; apply h11
      simpa using h
    · exact h
  rw [hc, if_neg h11]
  simp only [Bool.false_eq_true, if_false]
  by_cases h12 : 0x10FFFF < r ∨ (0xD800 ≤ r ∧ r ≤ 0xDFFF)
  · have hv : ValidRune r = false := by
      unfold ValidRune
      rcases h12 with h | h
      · simp; omega
      · simp; omega
    rw [if_pos h12]
    simp only [hv, Bool.not_false, if_true, appendHex_eq]
    simp [asciiBytes, backslash, hexDigits, List.range_succ, lowerhex]
  have hv : ValidRune r = true := by
    unfold ValidRune
    simp; omega
  rw [if_neg h12]
  simp only [hv, Bool.not_true, Bool.false_eq_true, if_false, appendHex_eq]
  by_cases h13 : r < 0x10000
  · simp [h13, asciiBytes, backslash]
  · simp [h13, asciiBytes, backslash]


theorem quoteLoop_eq (table : Nat → Bool) (s buf : List Nat) :
    quoteLoop table s buf = buf ++ (pieces s).flatMap (Piece.escape table) := by
  induction s, buf using quoteLoop.induct table with
  | case1 buf => simp [quoteLoop, pieces]
  | case2 buf s0 rest d hd ih =>
    have hd1 : ((if s0 ≥ RuneSelf then DecodeRuneInString (s0 :: rest) else (s0, 1)).2 == 1 &&
        (if s0 ≥ RuneSelf then DecodeRuneInString (s0 :: rest) else (s0, 1)).1 == RuneError)
          = true := hd
    rw [quoteLoop, pieces, if_pos hd1, if_pos hd1]
    refine Eq.trans ih ?_
    have hand : ∀ x : Nat, x &&& 0xF = x % 16 := fun x => Nat.and_pow_two_sub_one_eq_mod x 4
    simp [Piece.escape, asciiBytes, backslash, hand, Nat.shiftRight_eq_div_pow]
    rfl
  | case3 buf s0 rest d hd ih =>
    have hd1 : ¬ ((if s0 ≥ RuneSelf then DecodeRuneInString (s0 :: rest) else (s0, 1)).2 == 1 &&
        (if s0 ≥ RuneSelf then DecodeRuneInString (s0 :: rest) else (s0, 1)).1 == RuneError)
          = true := hd
    rw [quoteLoop, pieces, if_neg hd1, if_neg hd1]
    refine Eq.trans ih ?_
    rw [appendEscapedRune_eq]
    simp [Piece.escape]
    rfl

theorem Quote_eq (table : Nat → Bool) (s : List Nat) :
    Quote table s = [dquote] ++ (pieces s).flatMap (Piece.escape table) ++ [dquote] := by
  rw [Quote, quoteLoop_eq]


theorem pieces_cons_ascii (b : Nat) (s : List Nat) (hb : b < 0x80) :
    pieces (b :: s) = Piece.rune b :: pieces s := by
  have h1 : ¬ b ≥ RuneSelf := by simp [RuneSelf]; omega
  have h2 : (b == RuneError) = false := by simp [RuneError]; omega
  rw [pieces]
  simp [h1, h2]

theorem pieces_ascii (s : List Nat) (h : ∀ b ∈ s, b < 0x80) : pieces s = s.map Piece.rune := by
  induction s with
  | nil => simp [pieces]
  | cons b s ih =>
    rw [pieces_cons_ascii b s (h b (List.mem_cons_self b s)),
      ih (fun c hc => h c (List.mem_cons_of_mem b hc)), List.map_cons]

theorem IsPrint_latin1 (table : Nat → Bool) (r : Nat) (h : r ≤ 0xFF) :
    IsPrint table r = IsPrint (fun _ => false) r := by
  simp [IsPrint, h]

theorem escapeRune_latin1 (table : Nat → Bool) (r : Nat) (h : r ≤ 0xFF) :
    escapeRune table r = escapeRune (fun _ => false) r := by
  unfold escapeRune
  rw [IsPrint_latin1 table r h]

theorem escapeRune_ascii (table : Nat → Bool) (b : Nat) (hb : b < 0x80) :
    escapeRune table b = asciiEscape b := by
  rw [escapeRune_latin1 table b (by omega)]
  interval_cases b <;> rfl

theorem escapeRune_c1 (table : Nat → Bool) (r : Nat) (h1 : 0x7F ≤ r) (h2 : r < 0xA0) :
    escapeRune table r =
      if r = 0x7F then 0x5C :: asciiBytes "x7f"
      else (0x5C :: asciiBytes "u00") ++ hexDigits 2 r := by
  rw [escapeRune_latin1 table r (by omega)]
  interval_cases r <;> rfl

theorem flatMap_escape_ascii (table : Nat → Bool) (s : List Nat) (h : ∀ b ∈ s, b < 0x80) :
    (s.map Piece.rune).flatMap (Piece.escape table) = s.flatMap asciiEscape := by
  induction s with
  | nil => rfl
  | cons b s ih =>
    simp only [List.map_cons, List.flatMap_cons]
    rw [ih (fun c hc => h c (List.mem_cons_of_mem b hc))]
    simp only [Piece.escape]
    rw [escapeRune_ascii table b (h b (List.mem_cons_self b s))]

theorem Quote_ascii (table : Nat → Bool) (s : List Nat) (h : ∀ b ∈ s, b < 0x80) :
    Quote table s = [dquote] ++ s.flatMap asciiEscape ++ [dquote] := by
  rw [Quote_eq, pieces_ascii s h, flatMap_escape_ascii table s h]

theorem plainASCII_lt (b : Nat) (h : plainASCII b = true) : b < 0x80 := by
  simp [plainASCII] at h
  omega

theorem asciiEscape_plain (b : Nat) (h : plainASCII b = true) : asciiEscape b = [b] := by
  simp [plainASCII] at h
  obtain ⟨⟨⟨h1, h2⟩, h3⟩, h4⟩ := h
  simp [asciiEscape, h1, h2, h3, h4]

theorem flatMap_asciiEscape_plain (s : List Nat) (h : ∀ b ∈ s, plainASCII b = true) :
    s.flatMap asciiEscape = s := by
  induction s with
  | nil => rfl
  | cons b s ih =>
    rw [List.flatMap_cons, ih (fun c hc => h c (List.mem_cons_of_mem b hc)),
      asciiEscape_plain b (h b (List.mem_cons_self b s))]
    rfl

theorem Quote_plain (table : Nat → Bool) (s : List Nat) (h : ∀ b ∈ s, plainASCII b = true) :
    Quote table s = [dquote] ++ s ++ [dquote] := by
  rw [Quote_ascii table s (fun b hb => plainASCII_lt b (h b hb)), flatMap_asciiEscape_plain s h]

theorem pieces_rune (s0 : Nat) (rest : List Nat) (r w : Nat) (h0 : s0 ≥ RuneSelf)
    (hd : DecodeRuneInString (s0 :: rest) = (r, w)) (hne : (w == 1 && r == RuneError) = false) :
    pieces (s0 :: rest) = Piece.rune r :: pieces ((s0 :: rest).drop w) := by
  rw [pieces, if_pos h0, hd]
  simp only [hne, Bool.false_eq_true, if_false]

theorem pieces_illFormed (s0 : Nat) (rest : List Nat) (h0 : s0 ≥ RuneSelf)
    (hd : DecodeRuneInString (s0 :: rest) = (RuneError, 1)) :
    pieces (s0 :: rest) = Piece.illFormed s0 :: pieces rest := by
  rw [pieces, if_pos h0, hd]
  simp

theorem Quote_examples (table : Nat → Bool) :
    Quote table [0xC2, 0x85] = [0x22, 0x5C] ++ asciiBytes "u0085" ++ [0x22] ∧
      Quote table [0xFF] = [0x22, 0x5C] ++ asciiBytes "xff" ++ [0x22] ∧
      Quote table [0xE2, 0x82] =
        [0x22, 0x5C] ++ asciiBytes "xe2" ++ [0x5C] ++ asciiBytes "x82" ++ [0x22] ∧
      Quote table [0xC3, 0xA9] = [0x22, 0xC3, 0xA9, 0x22] ∧
      Quote table [0x61, 0x22, 0x0A, 0x01] =
        [0x22] ++ asciiBytes "a" ++ [0x5C, 0x22, 0x5C] ++ asciiBytes "n" ++ [0x5C] ++
          asciiBytes "x01" ++ [0x22] := by
  refine ⟨?_, ?_, ?_, ?_, ?_⟩
  · rw [Quote_eq, pieces_rune 0xC2 [0x85] 0x85 2 (by decide) (by decide) (by decide)]
    simp only [List.drop_succ_cons, List.drop_zero, pieces, List.flatMap_cons, List.flatMap_nil,
      Piece.escape]
    rw [escapeRune_latin1 table 0x85 (by decide)]
    rfl
  · rw [Quote_eq, pieces_illFormed 0xFF [] (by decide) (by decide)]
    simp only [pieces, List.flatMap_cons, List.flatMap_nil, Piece.escape]
    rfl
  · rw [Quote_eq, pieces_illFormed 0xE2 [0x82] (by decide) (by decide),
      pieces_illFormed 0x82 [] (by decide) (by decide)]
    simp only [pieces, List.flatMap_cons, List.flatMap_nil, Piece.escape]
    rfl
  · rw [Quote_eq, pieces_rune 0xC3 [0xA9] 0xE9 2 (by decide) (by decide) (by decide)]
    simp only [List.drop_succ_cons, List.drop_zero, pieces, List.flatMap_cons, List.flatMap_nil,
      Piece.escape]
    rw [escapeRune_latin1 table 0xE9 (by decide)]
    rfl
  · rw [Quote_ascii table _ (by decide)]
    rfl


theorem lowerhex_notControl (n : Nat) : 0x20 ≤ lowerhex n ∧ lowerhex n ≠ 0x7F := by
  by_cases h : n < 16
  · interval_cases n <;> exact ⟨by decide, by decide⟩
  · have : lowerhex n = 48 := by
      unfold lowerhex
      rw [List.getD_eq_default _ _ (by simpa using Nat.le_of_not_lt h)]
      rfl
    rw [this]
    exact ⟨by decide, by decide⟩

theorem hexDigits_notControl (w n b : Nat) (h : b ∈ hexDigits w n) : 0x20 ≤ b ∧ b ≠ 0x7F := by
  simp only [hexDigits, List.mem_map] at h
  obtain ⟨i, _, rfl⟩ := h
  exact lowerhex_notControl _

theorem or_notControl (c x : Nat) (hc : c.testBit 7 = true) :
    0x20 ≤ c ||| x ∧ c ||| x ≠ 0x7F := by
  have h : (c ||| x).testBit 7 = true := by rw [Nat.testBit_or, hc]; rfl
  have := Nat.testBit_implies_ge h
  exact ⟨by omega, by omega⟩

theorem AppendRune_notControl (table : Nat → Bool) (r b : Nat) (hp : IsPrint table r = true)
    (h : b ∈ AppendRune [] r) : 0x20 ≤ b ∧ b ≠ 0x7F := by
  unfold AppendRune appendRuneNonASCII at h
  by_cases h1 : r ≤ 0x7F
  · rw [if_pos h1] at h
    simp only [List.nil_append, List.mem_singleton] at h
    have h2 : r ≤ 0xFF := by omega
    simp only [IsPrint, h2, if_true] at hp
    have h3 : ¬ 0xA1 ≤ r := by omega
    simp [h3] at hp
    subst h
    rw [Nat.mod_eq_of_lt (by omega)]
    exact ⟨hp.1, by omega⟩
  · rw [if_neg h1] at h
    repeat' split at h
    all_goals
      simp only [List.nil_append, List.mem_cons, List.mem_singleton, List.not_mem_nil,
        or_false] at h
      rcases h with rfl | rfl | rfl | rfl
    all_goals exact or_notControl _ _ (by decide)

theorem literal_notControl (l : List Nat) (hl : l.all (fun b => 0x20 ≤ b && b != 0x7F) = true)
    (b : Nat) (h : b ∈ l) : 0x20 ≤ b ∧ b ≠ 0x7F := by
  have := List.all_eq_true.mp hl b h
  simpa using this

theorem escapeRune_notControl (table : Nat → Bool) (r b : Nat) (h : b ∈ escapeRune table r) :
    0x20 ≤ b ∧ b ≠ 0x7F := by
  unfold escapeRune at h
  by_cases h1 : r = 0x22
  · rw [if_pos h1] at h
    exact literal_notControl _ (by decide) b h
  rw [if_neg h1] at h
  by_cases h2 : r = 0x5C
  · rw [if_pos h2] at h
    exact literal_notControl _ (by decide) b h
  rw [if_neg h2] at h
  by_cases h3 : IsPrint table r = true
  · rw [if_pos h3] at h
    exact AppendRune_notControl table r b h3 h
  rw [if_neg h3] at h
  by_cases h4 : r = 7
  · rw [if_pos h4] at h
    exact literal_notControl _ (by decide) b h
  rw [if_neg h4] at h
  by_cases h5 : r = 8
  · rw [if_pos h5] at h
    exact literal_notControl _ (by decide) b h
  rw [if_neg h5] at h
  by_cases h6 : r = 12
  · rw [if_pos h6] at h
    exact literal_notControl _ (by decide) b h
  rw [if_neg h6] at h
  by_cases h7 : r = 10
  · rw [if_pos h7] at h
    exact literal_notControl _ (by decide) b h
  rw [if_neg h7] at h
  by_cases h8 : r = 13
  · rw [if_pos h8] at h
    exact literal_notControl _ (by decide) b h
  rw [if_neg h8] at h
  by_cases h9 : r = 9
  · rw [if_pos h9] at h
    exact literal_notControl _ (by decide) b h
  rw [if_neg h9] at h
  by_cases h10 : r = 11
  · rw [if_pos h10] at h
    exact literal_notControl _ (by decide) b h
  rw [if_neg h10] at h
  by_cases h11 : r < 0x20 ∨ r = 0x7F
  · rw [if_pos h11] at h
    rcases List.mem_append.mp h with h | h
    · exact literal_notControl _ (by decide) b h
    · exact hexDigits_notControl _ _ b h
  rw [if_neg h11] at h
  by_cases h12 : 0x10FFFF < r ∨ (0xD800 ≤ r ∧ r ≤ 0xDFFF)
  · rw [if_pos h12] at h
    exact literal_notControl _ (by decide) b h
  rw [if_neg h12] at h
  by_cases h13 : r < 0x10000
  · rw [if_pos h13] at h
    rcases List.mem_append.mp h with h | h
    · exact literal_notControl _ (by decide) b h
    · exact hexDigits_notControl _ _ b h
  rw [if_neg h13] at h
  rcases List.mem_append.mp h with h | h
  · exact literal_notControl _ (by decide) b h
  · exact hexDigits_notControl _ _ b h

theorem Piece.escape_notControl (table : Nat → Bool) (p : Piece) (b : Nat)
    (h : b ∈ Piece.escape table p) : 0x20 ≤ b ∧ b ≠ 0x7F := by
  cases p with
  | rune r => exact escapeRune_notControl table r b h
  | illFormed c =>
    rcases List.mem_append.mp h with h | h
    · exact literal_notControl _ (by decide) b h
    · simp only [List.mem_cons, List.mem_singleton, List.not_mem_nil, or_false] at h
      rcases h with rfl | rfl
      · exact lowerhex_notControl _
      · exact lowerhex_notControl _

theorem Quote_notControl (table : Nat → Bool) (s : List Nat) (b : Nat)
    (h : b ∈ Quote table s) : 0x20 ≤ b ∧ b ≠ 0x7F := by
  rw [Quote_eq] at h
  simp only [List.mem_append, List.mem_singleton, List.mem_flatMap, dquote] at h
  rcases h with (rfl | ⟨p, _, hp⟩) | rfl
  · exact ⟨by decide, by decide⟩
  · exact Piece.escape_notControl table p b hp
  · exact ⟨by decide, by decide⟩


theorem DecodeRuneInString_c1 (b : Nat) (h1 : 0x80 ≤ b) (h2 : b < 0xC0) :
    DecodeRuneInString [0xC2, b] = (b, 2) := by
  interval_cases b <;> rfl

theorem Quote_c1 (table : Nat → Bool) (b : Nat) (h1 : 0x80 ≤ b) (h2 : b < 0xA0) :
    Quote table [0xC2, b] = [0x22, 0x5C] ++ asciiBytes "u00" ++ hexDigits 2 b ++ [0x22] := by
  have hne : ((2 : Nat) == 1 && b == RuneError) = false := by simp
  rw [Quote_eq, pieces_rune 0xC2 [b] b 2 (by decide) (DecodeRuneInString_c1 b h1 (by omega)) hne]
  simp only [List.drop_succ_cons, List.drop_zero, pieces, List.flatMap_cons, List.flatMap_nil,
    Piece.escape]
  rw [escapeRune_c1 table b (by omega) h2, if_neg (by omega)]
  simp [dquote]

/-- C16: for every event, `Event.String` is the Go-quoted form of the name, followed by `": "`
and by `Op.String` of the mask.  The quoted form is the name between double quotes, read from
the left as code points and ill-formed bytes, each replaced by its escape, with the hexadecimal
digits of an escape given by division; no byte of it is an ASCII control character.  For a name
of ASCII bytes the escape of each byte is written out: a double quote and a backslash are
preceded by a backslash, a control character becomes one of the escapes `a b f n r t v` or `x`
with two digits, any other byte stays.  A name of printable ASCII bytes without double quote
and backslash is quoted unchanged.  The control characters U+0080 to U+009F become `u00` with
two digits, a byte that is not part of a well-formed sequence becomes `x` with two digits, and
a printable character outside ASCII keeps its bytes. -/
theorem Event.String_quoted (table : Nat → Bool) (e : Event) :
    Event.String table e =
        [0x22] ++ (pieces e.Name).flatMap (Piece.escape table) ++ [0x22] ++ asciiBytes ": " ++
          asciiBytes (Op.String e.Op) ∧
      (∀ b ∈ Quote table e.Name, 0x20 ≤ b ∧ b ≠ 0x7F) ∧
      ((∀ b ∈ e.Name, b < 0x80) →
        Event.String table e =
          [0x22] ++ e.Name.flatMap asciiEscape ++ [0x22] ++ asciiBytes ": " ++
            asciiBytes (Op.String e.Op)) ∧
      ((∀ b ∈ e.Name, plainASCII b = true) →
        Event.String table e =
          [0x22] ++ e.Name ++ [0x22] ++ asciiBytes ": " ++ asciiBytes (Op.String e.Op)) ∧
      (∀ b, 0x80 ≤ b → b < 0xA0 →
        Quote table [0xC2, b] = [0x22, 0x5C] ++ asciiBytes "u00" ++ hexDigits 2 b ++ [0x22]) ∧
      Quote table [0xC2, 0x85] = [0x22, 0x5C] ++ asciiBytes "u0085" ++ [0x22] ∧
      Quote table [0xFF] = [0x22, 0x5C] ++ asciiBytes "xff" ++ [0x22] ∧
      Quote table [0xE2, 0x82] =
        [0x22, 0x5C] ++ asciiBytes "xe2" ++ [0x5C] ++ asciiBytes "x82" ++ [0x22] ∧
      Quote table [0xC3, 0xA9] = [0x22, 0xC3, 0xA9, 0x22] ∧
      Quote table [0x61, 0x22, 0x0A, 0x01] =
        [0x22] ++ asciiBytes "a" ++ [0x5C, 0x22, 0x5C] ++ asciiBytes "n" ++ [0x5C] ++
          asciiBytes "x01" ++ [0x22] := by
  refine ⟨?_, Quote_notControl table e.Name, ?_, ?_, Quote_c1 table, Quote_examples table⟩
  · rw [Event.String, Quote_eq]
    rfl
  · intro h
    rw [Event.String, Quote_ascii table e.Name h]
    rfl
  · intro h
    rw [Event.String, Quote_plain table e.Name h]
    rfl

/-- C16, at the event `a b` with the mask `Create | Write`, whose name is quoted unchanged, and
at an event whose name holds a double quote, a line feed and the byte 1. -/
theorem Event.String_quoted_witness :
    Event.String (fun _ => true) (Event.mk (asciiBytes "a b") 3) =
        [0x22] ++ asciiBytes "a b" ++ [0x22] ++ asciiBytes ": " ++ asciiBytes (Op.String 3) ∧
      Event.String (fun _ => false) (Event.mk [0x61, 0x22, 0x0A, 0x01] 1) =
        [0x22] ++ [0x61, 0x22, 0x0A, 0x01].flatMap asciiEscape ++ [0x22] ++ asciiBytes ": " ++
          asciiBytes (Op.String 1) :=
  ⟨(Event.String_quoted (fun _ => true) (Event.mk (asciiBytes "a b") 3)).2.2.2.1 (by decide),
    (Event.String_quoted (fun _ => false) (Event.mk [0x61, 0x22, 0x0A, 0x01] 1)).2.2.1
      (by decide)⟩

/-! ## Theorems: the order of the walk -/

theorem strLess_irrefl (a : List Char) : strLess a a = false := by
  induction a with
  | nil => rfl
  | cons c a ih => simp [strLess, ih]

theorem posBefore_cons_same (n : List Char) (x y : List (List Char)) :
    posBefore (n :: x) (n :: y) = posBefore x y := by
  simp [posBefore, strLess_irrefl]

theorem posBefore_cons_less (n m : List Char) (x y : List (List Char))
    (h : strLess n m = true) : posBefore (n :: x) (m :: y) = true := by
  simp [posBefore, h]

theorem posBefore_append_left (x a b : List (List Char)) :
    posBefore (x ++ a) (x ++ b) = posBefore a b := by
  induction x with
  | nil => rfl
  | cons n x ih => rw [List.cons_append, List.cons_append, posBefore_cons_same, ih]

mutual
/-- The directories listed for a subtree are the paths of its directory places, in order. -/
theorem Node.dirsOf_listing_eq :
    ∀ (d : Node) (p : List Char), dirsOf (d.listing p) = d.dirPlaces.map (pathAt p)
  | .file, p => by simp [Node.listing, Node.dirPlaces, dirsOf]
  | .dir es re, p => by
    have := Entries.dirsOf_below_eq es p
    simp only [dirsOf] at this
    simp [Node.listing, Node.dirPlaces, dirsOf, this, pathAt]
/-- The same for a listing. -/
theorem Entries.dirsOf_below_eq :
    ∀ (es : Entries) (p : List Char), dirsOf (es.listing p) = es.dirPlaces.map (pathAt p)
  | .nil, p => by simp [Entries.listing, Entries.dirPlaces, dirsOf]
  | .cons name d rest, p => by
    rw [Entries.listing, dirsOf_append, Node.dirsOf_listing_eq d (Join p name),
      Entries.dirsOf_below_eq rest p, Entries.dirPlaces, List.map_append, List.map_map]
    rfl
end

theorem Entries.sorted_cons (name : List Char) (d : Node) (rest : Entries)
    (h : (Entries.cons name d rest).sorted = true) :
    (∀ n ∈ rest.names, strLess name n = true) ∧ d.sorted = true ∧ rest.sorted = true := by
  rw [Entries.sorted] at h
  simp only [Bool.and_eq_true, List.all_eq_true] at h
  exact ⟨h.1.1, h.1.2, h.2⟩

mutual
/-- In a sorted subtree the directory places come in pre-order. -/
theorem Node.dirPlaces_pairwise :
    ∀ d : Node, d.sorted = true → d.dirPlaces.Pairwise (fun x y => posBefore x y = true)
  | .file, _ => by
    rw [Node.dirPlaces]
    exact List.Pairwise.nil
  | .dir es re, h => by
    rw [Node.sorted] at h
    obtain ⟨h1, h2⟩ := Entries.belowPlaces_pairwise es h
    rw [Node.dirPlaces, List.pairwise_cons]
    refine ⟨?_, h1⟩
    intro y hy
    obtain ⟨n, ns, _, hn⟩ := h2 y hy
    rw [hn]
    rfl
/-- The same for a listing; every place below a listing starts with one of its names. -/
theorem Entries.belowPlaces_pairwise :
    ∀ es : Entries, es.sorted = true →
      es.dirPlaces.Pairwise (fun x y => posBefore x y = true) ∧
        ∀ y ∈ es.dirPlaces, ∃ n ns, n ∈ es.names ∧ y = n :: ns
  | .nil, _ => by
    rw [Entries.dirPlaces]
    exact ⟨List.Pairwise.nil, fun _ h => absurd h (List.not_mem_nil _)⟩
  | .cons name d rest, h => by
    obtain ⟨hlt, hd, hrest⟩ := Entries.sorted_cons name d rest h
    have hd1 := Node.dirPlaces_pairwise d hd
    obtain ⟨hr1, hr2⟩ := Entries.belowPlaces_pairwise rest hrest
    rw [Entries.dirPlaces, Entries.names]
    constructor
    · rw [List.pairwise_append]
      refine ⟨?_, hr1, ?_⟩
      · rw [List.pairwise_map]
        exact hd1.imp (fun hxy => by rw [posBefore_cons_same]; exact hxy)
      · intro x hx y hy
        obtain ⟨x', _, hx'⟩ := List.mem_map.1 hx
        obtain ⟨n, ns, hn, hy'⟩ := hr2 y hy
        rw [← hx', hy']
        exact posBefore_cons_less _ _ _ _ (hlt n hn)
    · intro y hy
      rcases List.mem_append.1 hy with hy | hy
      · obtain ⟨x', _, hx'⟩ := List.mem_map.1 hy
        exact ⟨name, x', List.mem_cons_self _ _, hx'.symm⟩
      · obtain ⟨n, ns, hn, hy'⟩ := hr2 y hy
        exact ⟨n, ns, List.mem_cons_of_mem _ hn, hy'⟩
end

theorem findDirs_success_readable (d : Node) (path : List Char) (hwf : d.wellFormed = true)
    (h : (findDirs (.ok d) path).2 = none) : d.IsDir = true ∧ d.firstReadErr = none := by
  cases d with
  | file =>
    rw [findDirs_file] at h
    exact absurd h (by simp)
  | dir es re =>
    refine ⟨rfl, ?_⟩
    cases hr : (Node.dir es re).firstReadErr with
    | none => rfl
    | some c =>
      rw [findDirs_readErr (Node.dir es re) path c rfl hwf hr] at h
      exact absurd h (by simp)

/-- C19: for every path `p` in cleaned form, `recursivePath` on `p/...` returns `p`, unchanged,
and `true`. -/
theorem recursivePath_echo (p : List Char) (hp : Clean p = p) :
    recursivePath (p ++ "/...".toList) = (p, true) :=
  recursivePath_marker p hp

/-- C19, at the cleaned path `/abs/dir`. -/
theorem recursivePath_echo_witness :
    recursivePath ("/abs/dir".toList ++ "/...".toList) = ("/abs/dir".toList, true) :=
  recursivePath_echo "/abs/dir".toList (by simp [Clean, cleanLoop, IsPathSeparator, notSep])

/-! ## Theorems: the sorting of `os.ReadDir` -/

theorem Char.eq_of_toNat_eq {a b : Char} (h : a.toNat = b.toNat) : a = b := by
  rw [← Char.ofNat_toNat a, ← Char.ofNat_toNat b, h]

theorem strLess_cons (a b : Char) (as bs : List Char) :
    strLess (a :: as) (b :: bs) = true ↔
      a.toNat < b.toNat ∨ (a = b ∧ strLess as bs = true) := by
  simp [strLess]

theorem strLess_trans :
    ∀ a b c : List Char, strLess a b = true → strLess b c = true → strLess a c = true
  | [], [], _, h, _ => absurd h (by simp [strLess])
  | [], _ :: _, [], _, h => absurd h (by simp [strLess])
  | [], _ :: _, _ :: _, _, _ => rfl
  | _ :: _, [], _, h, _ => absurd h (by simp [strLess])
  | _ :: _, _ :: _, [], _, h => absurd h (by simp [strLess])
  | x :: as, y :: bs, z :: cs, h1, h2 => by
    rw [strLess_cons] at h1 h2 ⊢
    rcases h1 with h1 | ⟨rfl, h1⟩ <;> rcases h2 with h2 | ⟨rfl, h2⟩
    · exact Or.inl (by omega)
    · exact Or.inl h1
    · exact Or.inl h2
    · exact Or.inr ⟨rfl, strLess_trans as bs cs h1 h2⟩

theorem strLess_total :
    ∀ a b : List Char, a ≠ b → strLess a b = false → strLess b a = true
  | [], [], h, _ => absurd rfl h
  | [], _ :: _, _, h => absurd h (by simp [strLess])
  | _ :: _, [], _, _ => rfl
  | x :: as, y :: bs, hne, h => by
    rw [strLess_cons]
    have h' : ¬ (x.toNat < y.toNat ∨ (x = y ∧ strLess as bs = true)) := by
      rw [← strLess_cons, h]
      simp
    by_cases hxy : x.toNat = y.toNat
    · have hc := Char.eq_of_toNat_eq hxy
      subst hc
      refine Or.inr ⟨rfl, strLess_total as bs (fun hab => hne (by rw [hab])) ?_⟩
      cases hs : strLess as bs
      · rfl
      · exact absurd (Or.inr ⟨rfl, hs⟩) h'
    · refine Or.inl ?_
      have : ¬ x.toNat < y.toNat := fun hlt => h' (Or.inl hlt)
      omega

theorem Entries.hasName_iff : ∀ (es : Entries) (n : List Char),
    es.hasName n = true ↔ n ∈ es.names
  | .nil, n => by simp [Entries.hasName, Entries.names]
  | .cons name d rest, n => by
    simp only [Entries.hasName, Entries.names, Bool.or_eq_true, beq_iff_eq, List.mem_cons,
      Entries.hasName_iff rest n]
    constructor
    · rintro (h | h)
      · exact Or.inl h.symm
      · exact Or.inr h
    · rintro (h | h)
      · exact Or.inl h.symm
      · exact Or.inr h

theorem Entries.names_insert_perm (name : List Char) (d : Node) : ∀ es : Entries,
    (Entries.insert name d es).names.Perm (name :: es.names)
  | .nil => List.Perm.refl _
  | .cons n' d' rest => by
    rw [Entries.insert]
    split
    · exact List.Perm.refl _
    · rw [Entries.names, Entries.names]
      exact (List.Perm.cons n' (Entries.names_insert_perm name d rest)).trans
        (List.Perm.swap name n' rest.names)

theorem Entries.names_sort_perm : ∀ es : Entries, es.sort.names.Perm es.names
  | .nil => List.Perm.refl _
  | .cons name d rest => by
    rw [Entries.sort, Entries.names]
    exact (Entries.names_insert_perm name d rest.sort).trans
      (List.Perm.cons name (Entries.names_sort_perm rest))

theorem Entries.allNodes_insert (P : Node → Bool) (name : List Char) (d : Node) :
    ∀ es : Entries, (Entries.insert name d es).allNodes P = (P d && es.allNodes P)
  | .nil => rfl
  | .cons n' d' rest => by
    rw [Entries.insert]
    split
    · rfl
    · rw [Entries.allNodes, Entries.allNodes_insert P name d rest, Entries.allNodes]
      cases P d <;> cases P d' <;> rfl

theorem Entries.allNodes_sort (P : Node → Bool) :
    ∀ es : Entries, es.sort.allNodes P = es.allNodes P
  | .nil => rfl
  | .cons name d rest => by
    rw [Entries.sort, Entries.allNodes_insert, Entries.allNodes_sort P rest, Entries.allNodes]

theorem Entries.insert_pairwise (name : List Char) (d : Node) : ∀ es : Entries,
    es.names.Pairwise (fun x y => strLess x y = true) → name ∉ es.names →
      (Entries.insert name d es).names.Pairwise (fun x y => strLess x y = true)
  | .nil, _, _ => by simp [Entries.insert, Entries.names]
  | .cons n' d' rest, hs, hn => by
    rw [Entries.names, List.pairwise_cons] at hs
    rw [Entries.names, List.mem_cons, not_or] at hn
    rw [Entries.insert]
    split
    · next hlt =>
      rw [Entries.names, Entries.names, List.pairwise_cons, List.pairwise_cons]
      refine ⟨?_, hs.1, hs.2⟩
      intro y hy
      rcases List.mem_cons.1 hy with rfl | hy
      · exact hlt
      · exact strLess_trans _ _ _ hlt (hs.1 y hy)
    · next hlt =>
      have hlt' : strLess n' name = true :=
        strLess_total name n' hn.1 (by simpa using hlt)
      rw [Entries.names, List.pairwise_cons]
      refine ⟨?_, Entries.insert_pairwise name d rest hs.2 hn.2⟩
      intro y hy
      rcases List.mem_cons.1 ((Entries.names_insert_perm name d rest).mem_iff.1 hy) with rfl | hy
      · exact hlt'
      · exact hs.1 y hy

theorem Entries.sort_pairwise : ∀ es : Entries, es.names.Nodup →
    es.sort.names.Pairwise (fun x y => strLess x y = true)
  | .nil, _ => by simp [Entries.sort, Entries.names]
  | .cons name d rest, hn => by
    rw [Entries.names, List.nodup_cons] at hn
    rw [Entries.sort]
    exact Entries.insert_pairwise name d rest.sort (Entries.sort_pairwise rest hn.2)
      (fun h => hn.1 ((Entries.names_sort_perm rest).mem_iff.1 h))

theorem Entries.sorted_iff : ∀ es : Entries,
    es.sorted = true ↔
      es.names.Pairwise (fun x y => strLess x y = true) ∧ es.allNodes Node.sorted = true
  | .nil => by simp [Entries.sorted, Entries.names, Entries.allNodes]
  | .cons name d rest => by
    rw [Entries.sorted, Entries.names, Entries.allNodes, List.pairwise_cons]
    simp only [Bool.and_eq_true, List.all_eq_true, Entries.sorted_iff rest]
    constructor
    · rintro ⟨⟨h1, h2⟩, h3, h4⟩
      exact ⟨⟨h1, h3⟩, h2, h4⟩
    · rintro ⟨⟨h1, h3⟩, h2, h4⟩
      exact ⟨⟨h1, h2⟩, h3, h4⟩

theorem Entries.wellFormed_iff : ∀ es : Entries,
    es.wellFormed = true ↔
      (∀ n ∈ es.names, validName n = true) ∧ es.names.Nodup ∧
        es.allNodes Node.wellFormed = true
  | .nil => by simp [Entries.wellFormed, Entries.names, Entries.allNodes]
  | .cons name d rest => by
    rw [Entries.wellFormed, Entries.names, Entries.allNodes, List.nodup_cons]
    simp only [Bool.and_eq_true, Bool.not_eq_true', List.mem_cons, Entries.wellFormed_iff rest]
    have hh : rest.hasName name = false ↔ name ∉ rest.names := by
      rw [← Entries.hasName_iff]
      simp
    rw [hh]
    constructor
    · rintro ⟨⟨⟨h1, h2⟩, h3⟩, h4, h5, h6⟩
      refine ⟨?_, ⟨h2, h5⟩, h3, h6⟩
      rintro n (rfl | hn)
      · exact h1
      · exact h4 n hn
    · rintro ⟨h1, ⟨h2, h5⟩, h3, h6⟩
      exact ⟨⟨⟨h1 name (Or.inl rfl), h2⟩, h3⟩, fun n hn => h1 n (Or.inr hn), h5, h6⟩

mutual
/-- The view of a well-formed tree through `os.ReadDir` is well-formed and sorted. -/
theorem Node.readDirView_sorted :
    ∀ d : Node, d.wellFormed = true →
      d.readDirView.wellFormed = true ∧ d.readDirView.sorted = true
  | .file, _ => ⟨rfl, rfl⟩
  | .dir es re, h => by
    rw [Node.wellFormed, Entries.wellFormed_iff] at h
    obtain ⟨h1, h2, h3⟩ := Entries.readDirView_nodes es
    have hp := Entries.names_sort_perm es.readDirView
    rw [Node.readDirView, Node.wellFormed, Node.sorted, Entries.wellFormed_iff,
      Entries.sorted_iff, Entries.allNodes_sort, Entries.allNodes_sort]
    refine ⟨⟨?_, ?_, h2 h.2.2⟩, Entries.sort_pairwise _ (by rw [h1]; exact h.2.1), h3 h.2.2⟩
    · intro n hn
      exact h.1 n (by rw [← h1]; exact hp.mem_iff.1 hn)
    · rw [hp.nodup_iff, h1]
      exact h.2.1
/-- The subtrees of a listing of well-formed nodes are well-formed and sorted in the view, and
the names of the listing are kept. -/
theorem Entries.readDirView_nodes :
    ∀ es : Entries, es.readDirView.names = es.names ∧
      (es.allNodes Node.wellFormed = true →
        es.readDirView.allNodes Node.wellFormed = true) ∧
      (es.allNodes Node.wellFormed = true → es.readDirView.allNodes Node.sorted = true)
  | .nil => ⟨rfl, fun _ => rfl, fun _ => rfl⟩
  | .cons name d rest => by
    obtain ⟨h1, h2, h3⟩ := Entries.readDirView_nodes rest
    refine ⟨?_, ?_, ?_⟩
    · rw [Entries.readDirView, Entries.names, Entries.names, h1]
    · intro h
      rw [Entries.allNodes, Bool.and_eq_true] at h
      rw [Entries.readDirView, Entries.allNodes, Bool.and_eq_true]
      exact ⟨(Node.readDirView_sorted d h.1).1, h2 h.2⟩
    · intro h
      rw [Entries.allNodes, Bool.and_eq_true] at h
      rw [Entries.readDirView, Entries.allNodes, Bool.and_eq_true]
      exact ⟨(Node.readDirView_sorted d h.1).2, h3 h.2⟩
end

theorem findDirs_sorted_preorder (d : Node) (path : List Char) (hwf : d.wellFormed = true)
    (hsorted : d.sorted = true) (h : (findDirs (.ok d) path).2 = none) :
    (findDirs (.ok d) path).1 = d.dirPlaces.map (pathAt path) ∧
      d.dirPlaces.Pairwise (fun x y => posBefore x y = true) := by
  obtain ⟨hdir, hread⟩ := findDirs_success_readable d path hwf h
  refine ⟨?_, Node.dirPlaces_pairwise d hsorted⟩
  rw [findDirs_readable d path hdir hwf hread, Node.dirsOf_listing_eq]

/-- C11: a successful `findDirs` returns the directories in pre-order with siblings in the
order of their names.  For every well-formed tree, seen through `os.ReadDir`, which sorts each
listing by file name, the list returned is the paths of the directory places of the tree, and
of two places in the list the earlier one comes before the later one in the order `posBefore`,
in which a directory precedes everything below it and, below a common directory, everything
under the entry with the smaller name precedes everything under the entry with the larger
name. -/
theorem findDirs_preorder (raw : Node) (path : List Char) (hwf : raw.wellFormed = true)
    (h : (findDirs (.ok raw.readDirView) path).2 = none) :
    (findDirs (.ok raw.readDirView) path).1 = raw.readDirView.dirPlaces.map (pathAt path) ∧
      raw.readDirView.dirPlaces.Pairwise (fun x y => posBefore x y = true) ∧
      (∀ (x : List (List Char)) (n : List Char) (y : List (List Char)),
        posBefore x (x ++ n :: y) = true) ∧
      (∀ (x : List (List Char)) (n m : List Char) (a b : List (List Char)),
        strLess n m = true → posBefore (x ++ n :: a) (x ++ m :: b) = true) := by
  obtain ⟨hwf', hsorted⟩ := Node.readDirView_sorted raw hwf
  obtain ⟨h1, h2⟩ := findDirs_sorted_preorder raw.readDirView path hwf' hsorted h
  refine ⟨h1, h2, ?_, ?_⟩
  · intro x n y
    have := posBefore_append_left x [] (n :: y)
    rw [List.append_nil] at this
    rw [this]
    rfl
  · intro x n m a b hnm
    rw [posBefore_append_left]
    exact posBefore_cons_less n m a b hnm

/-- C11, at a concrete tree: the directory `r` stores the directory `b` before the directory
`a`, which holds the directory `x`. -/
theorem findDirs_preorder_witness :
    (Node.dir (Entries.cons "b".toList (Node.dir Entries.nil none)
        (Entries.cons "a".toList
          (Node.dir (Entries.cons "x".toList (Node.dir Entries.nil none) Entries.nil) none)
          Entries.nil)) none).readDirView.dirPlaces =
      [[], ["a".toList], ["a".toList, "x".toList], ["b".toList]] ∧
      (Node.dir (Entries.cons "b".toList (Node.dir Entries.nil none)
        (Entries.cons "a".toList
          (Node.dir (Entries.cons "x".toList (Node.dir Entries.nil none) Entries.nil) none)
          Entries.nil)) none).readDirView.dirPlaces.Pairwise
        (fun x y => posBefore x y = true) :=
  ⟨by decide,
    (findDirs_preorder (Node.dir (Entries.cons "b".toList (Node.dir Entries.nil none)
      (Entries.cons "a".toList
        (Node.dir (Entries.cons "x".toList (Node.dir Entries.nil none) Entries.nil) none)
        Entries.nil)) none) "r".toList (by decide)
      (congrArg Prod.snd (findDirs_readable (Node.dir (Entries.cons "b".toList
        (Node.dir Entries.nil none)
        (Entries.cons "a".toList
          (Node.dir (Entries.cons "x".toList (Node.dir Entries.nil none) Entries.nil) none)
          Entries.nil)) none).readDirView "r".toList
        (by decide) (by decide) (by decide)))).2.1⟩

end Fsnotify
